import Mathlib

/-!
# PrismJSX — verification of the block-extraction / exclusion / coloring core

Shallow embedding of the algorithmic core of the PrismJSX editor extension:

* editor positions and line ranges (`Pos`, `Rng`), mirroring `vscode.Position`
  (lexicographic `(line, character)` order) and `vscode.Range`;
* the region-exclusion subtraction `filterOutSuppressed` of the function
  colorer (`src/unnamed/part_007`, also `part_006`);
* the interval-tree builder `analyzeFunctionTree` and the color assignment
  `colorFor` of `src/src/extension.ts`;
* the region-marker scan `parseRegions` / `outermostOnly` of
  `src/unnamed/part_004`;
* the indentation-width computation `computeBaseIndent` /
  `computeColoringWidth` of `src/src/extension.ts`;
* the exclusion bus `publishExclusionRanges` (source appended in
  `src/CHANGELOG.md`);
* the brace-scanning extractor `computeFunctionRanges` / `dropNested` of
  `src/unnamed/part_007` / `part_006`.

Ranges are treated as half-open spans of positions (`posMem`): two ranges that
merely touch at an endpoint share no content, matching how the splitting code
in `filterOutSuppressed` treats them.
-/

/-- An editor position, mirroring `vscode.Position`: a `(line, character)`
pair compared lexicographically. -/
structure Pos where
  line : Nat
  char : Nat
deriving DecidableEq, Repr

/-- `a.isBefore b`, as in `vscode.Position.isBefore`: strict lexicographic
comparison of `(line, character)`. -/
def Pos.isBefore (a b : Pos) : Bool :=
  decide (a.line < b.line) || (a.line == b.line && decide (a.char < b.char))

/-- `a.isBeforeOrEqual b`, as in `vscode.Position.isBeforeOrEqual`. -/
def Pos.isBeforeOrEqual (a b : Pos) : Bool :=
  decide (a.line < b.line) || (a.line == b.line && decide (a.char ≤ b.char))

/-- `a.isAfter b`, as in `vscode.Position.isAfter`. -/
def Pos.isAfter (a b : Pos) : Bool := b.isBefore a

/-- `a.isAfterOrEqual b`, as in `vscode.Position.isAfterOrEqual`. -/
def Pos.isAfterOrEqual (a b : Pos) : Bool := b.isBeforeOrEqual a

@[simp] theorem Pos.isAfter_def {a b : Pos} : a.isAfter b = b.isBefore a := rfl

@[simp] theorem Pos.isAfterOrEqual_def {a b : Pos} :
    a.isAfterOrEqual b = b.isBeforeOrEqual a := rfl

@[simp] theorem Pos.isBefore_iff {a b : Pos} :
    a.isBefore b = true ↔ a.line < b.line ∨ (a.line = b.line ∧ a.char < b.char) := by
  simp [Pos.isBefore]

@[simp] theorem Pos.isBeforeOrEqual_iff {a b : Pos} :
    a.isBeforeOrEqual b = true ↔ a.line < b.line ∨ (a.line = b.line ∧ a.char ≤ b.char) := by
  simp [Pos.isBeforeOrEqual]

@[simp] theorem Pos.isBefore_eq_false {a b : Pos} :
    a.isBefore b = false ↔ b.line < a.line ∨ (b.line = a.line ∧ b.char ≤ a.char) := by
  rw [← Bool.not_eq_true, Pos.isBefore_iff]
  omega

@[simp] theorem Pos.isBeforeOrEqual_eq_false {a b : Pos} :
    a.isBeforeOrEqual b = false ↔ b.line < a.line ∨ (b.line = a.line ∧ b.char < a.char) := by
  rw [← Bool.not_eq_true, Pos.isBeforeOrEqual_iff]
  omega

/-- An editor range, mirroring `vscode.Range`: a start and an end position.
(The end position is called `stop` because `end` is reserved in Lean.) -/
structure Rng where
  start : Pos
  stop : Pos
deriving DecidableEq, Repr

/-- A non-degenerate range: start strictly before end. All function-block
ranges produced by the extractors are of this shape. -/
def properRng (r : Rng) : Prop := r.start.isBefore r.stop = true

/-- The ranges `p` and `s` have no content in common (as half-open spans):
`p` ends at or before `s` starts, or starts at or after `s` ends. This is
exactly the no-intersection test used by `filterOutSuppressed`. -/
def rngDisjoint (p s : Rng) : Prop :=
  p.stop.isBeforeOrEqual s.start = true ∨ p.start.isAfterOrEqual s.stop = true

/-- `r` lies fully inside `s`: `s.start ≤ r.start` and `r.end ≤ s.end`. -/
def insideRng (r s : Rng) : Prop :=
  r.start.isAfterOrEqual s.start = true ∧ r.stop.isBeforeOrEqual s.stop = true

/-- Position `x` lies in the half-open span of `r`. -/
def posMem (x : Pos) (r : Rng) : Prop :=
  r.start.isBeforeOrEqual x = true ∧ x.isBefore r.stop = true

/-- `q` is a sub-range of `p`. -/
def subRng (q p : Rng) : Prop :=
  p.start.isBeforeOrEqual q.start = true ∧ q.stop.isBeforeOrEqual p.stop = true

instance (r : Rng) : Decidable (properRng r) := by unfold properRng; infer_instance
instance (p s : Rng) : Decidable (rngDisjoint p s) := by unfold rngDisjoint; infer_instance
instance (r s : Rng) : Decidable (insideRng r s) := by unfold insideRng; infer_instance
instance (x : Pos) (r : Rng) : Decidable (posMem x r) := by unfold posMem; infer_instance
instance (q p : Rng) : Decidable (subRng q p) := by unfold subRng; infer_instance

/-!
## Region suppression of function ranges (`filterOutSuppressed`)

From `src/unnamed/part_007` (identically in `part_006`): for each function
range, repeatedly cut away every suppressed (region) span, keeping the left
and right remainders.
-/

/-- One cut of a piece `p` against a suppressed range `s` — the body of the
inner `for (const p of pieces)` loop of `filterOutSuppressed`:
if they do not intersect keep `p`, otherwise keep the left remainder
`[p.start, s.start)` and/or the right remainder `[s.end, p.end)` when
non-degenerate. -/
def cutPiece (p s : Rng) : List Rng :=
  if p.stop.isBeforeOrEqual s.start || p.start.isAfterOrEqual s.stop then
    [p]
  else
    (if p.start.isBefore s.start then [⟨p.start, s.start⟩] else []) ++
    (if p.stop.isAfter s.stop then [⟨s.stop, p.stop⟩] else [])

/-- One round of the `for (const s of suppress)` loop: cut every current
piece against `s`. (The source's early `if (!pieces.length) break` is an
optimization with no effect on the result.) -/
def cutBySuppress (pieces : List Rng) (s : Rng) : List Rng :=
  pieces.flatMap (fun p => cutPiece p s)

/-- The pieces a single function range `r` contributes after subtracting all
suppressed ranges. -/
def suppressOne (r : Rng) (suppress : List Rng) : List Rng :=
  suppress.foldl cutBySuppress [r]

/-- `filterOutSuppressed` from `src/unnamed/part_007` lines 158–186: region
suppression of the function ranges, splitting partially-overlapping ranges
into remainder pieces. -/
def filterOutSuppressed (ranges suppress : List Rng) : List Rng :=
  if suppress.isEmpty then ranges
  else ranges.flatMap (fun r => suppressOne r suppress)


theorem cutPiece_sub {p s : Rng} {q : Rng} (hq : q ∈ cutPiece p s) : subRng q p := by
  unfold cutPiece at hq
  unfold subRng
  split at hq
  · simp only [List.mem_singleton] at hq
    subst hq
    simp
  · rename_i hno
    simp only [Bool.or_eq_true, not_or, Bool.not_eq_true] at hno
    rw [List.mem_append] at hq
    rcases hq with hq | hq <;> split at hq <;>
        simp only [List.mem_singleton, List.not_mem_nil] at hq <;> try subst hq
    all_goals rename_i hb
    all_goals simp_all
    all_goals omega

theorem cutPiece_disjoint {p s : Rng} {q : Rng} (hq : q ∈ cutPiece p s) : rngDisjoint q s := by
  unfold cutPiece at hq
  unfold rngDisjoint
  split at hq
  · rename_i hyes
    simp only [List.mem_singleton] at hq
    subst hq
    rw [Bool.or_eq_true] at hyes
    simpa using hyes
  · rw [List.mem_append] at hq
    rcases hq with hq | hq <;> split at hq <;>
        simp only [List.mem_singleton, List.not_mem_nil] at hq <;> try subst hq
    · simp
    · simp

theorem cutPiece_proper {p s : Rng} (hp : properRng p) {q : Rng} (hq : q ∈ cutPiece p s) :
    properRng q := by
  unfold cutPiece at hq
  unfold properRng at *
  split at hq
  · simp only [List.mem_singleton] at hq
    subst hq
    exact hp
  · rw [List.mem_append] at hq
    rcases hq with hq | hq <;> split at hq <;>
        simp only [List.mem_singleton, List.not_mem_nil] at hq <;> try subst hq
    all_goals rename_i hb
    all_goals simp_all

theorem subRng_trans {a b c : Rng} (h1 : subRng a b) (h2 : subRng b c) : subRng a c := by
  unfold subRng at *
  simp_all
  omega

theorem subRng_posMem {q p : Rng} (h : subRng q p) {x : Pos} (hx : posMem x q) : posMem x p := by
  unfold subRng posMem at *
  simp_all
  omega

theorem rngDisjoint_of_subRng {q p s : Rng} (hd : rngDisjoint p s) (hs : subRng q p) :
    rngDisjoint q s := by
  unfold rngDisjoint subRng at *
  simp_all
  omega

theorem properRng_posMem_start {r : Rng} (h : properRng r) : posMem r.start r := by
  unfold properRng posMem at *
  simp_all

theorem cutPiece_posMem {p s : Rng} {x : Pos} :
    (∃ q ∈ cutPiece p s, posMem x q) ↔ posMem x p ∧ ¬ posMem x s := by
  unfold cutPiece posMem
  split
  · rename_i hyes
    simp only [Bool.or_eq_true, Pos.isBeforeOrEqual_iff, Pos.isAfterOrEqual_def] at hyes
    simp only [List.mem_singleton, exists_eq_left]
    constructor
    · rintro ⟨h1, h2⟩
      simp only [Pos.isBeforeOrEqual_iff, Pos.isBefore_iff] at *
      refine ⟨⟨h1, h2⟩, ?_⟩
      omega
    · rintro ⟨⟨h1, h2⟩, _⟩
      exact ⟨h1, h2⟩
  · rename_i hno
    simp only [Bool.or_eq_true, not_or, Bool.not_eq_true, Pos.isAfterOrEqual_def,
      Pos.isBeforeOrEqual_eq_false] at hno
    constructor
    · rintro ⟨q, hq, hmq⟩
      rw [List.mem_append] at hq
      rcases hq with hq | hq <;> split at hq <;>
          simp only [List.mem_singleton, List.not_mem_nil] at hq <;> try subst hq
      all_goals rename_i hb
      all_goals simp_all
      all_goals omega
    · rintro ⟨⟨h1, h2⟩, h3⟩
      simp only [Pos.isBeforeOrEqual_iff, Pos.isBefore_iff] at h1 h2
      have h3' : (x.line < s.start.line ∨ (x.line = s.start.line ∧ x.char < s.start.char)) ∨
          (s.stop.line < x.line ∨ (s.stop.line = x.line ∧ s.stop.char ≤ x.char)) := by
        by_contra hcon
        apply h3
        simp only [Pos.isBeforeOrEqual_iff, Pos.isBefore_iff]
        omega
      rcases h3' with h3' | h3'
      · have hlt : p.start.isBefore s.start = true := by
          simp only [Pos.isBefore_iff]
          omega
        refine ⟨⟨p.start, s.start⟩, ?_, ?_⟩
        · simp [hlt]
        · simp only [Pos.isBeforeOrEqual_iff, Pos.isBefore_iff]
          exact ⟨h1, by omega⟩
      · have hgt : p.stop.isAfter s.stop = true := by
          simp only [Pos.isAfter_def, Pos.isBefore_iff]
          omega
        refine ⟨⟨s.stop, p.stop⟩, ?_, ?_⟩
        · rw [List.mem_append]
          right
          simpa using hgt
        · simp only [Pos.isBeforeOrEqual_iff, Pos.isBefore_iff]
          exact ⟨by omega, h2⟩

theorem subRng_refl (r : Rng) : subRng r r := by
  unfold subRng
  simp

theorem insideRng_posMem {r s : Rng} (h : insideRng r s) {x : Pos} (hx : posMem x r) :
    posMem x s := by
  unfold insideRng posMem at *
  simp_all
  omega

theorem cutBySuppress_mem {pieces : List Rng} {s q : Rng} :
    q ∈ cutBySuppress pieces s ↔ ∃ p ∈ pieces, q ∈ cutPiece p s := by
  simp [cutBySuppress]

theorem cutBySuppress_posMem {pieces : List Rng} {s : Rng} {x : Pos} :
    (∃ q ∈ cutBySuppress pieces s, posMem x q) ↔
      (∃ p ∈ pieces, posMem x p) ∧ ¬ posMem x s := by
  constructor
  · rintro ⟨q, hq, hx⟩
    rw [cutBySuppress_mem] at hq
    obtain ⟨p, hp, hqp⟩ := hq
    have := cutPiece_posMem.mp ⟨q, hqp, hx⟩
    exact ⟨⟨p, hp, this.1⟩, this.2⟩
  · rintro ⟨⟨p, hp, hx⟩, hns⟩
    obtain ⟨q, hq, hxq⟩ := cutPiece_posMem.mpr ⟨hx, hns⟩
    exact ⟨q, cutBySuppress_mem.mpr ⟨p, hp, hq⟩, hxq⟩

theorem foldl_cutBySuppress_spec (sup : List Rng) :
    ∀ pieces : List Rng, (∀ q ∈ pieces, properRng q) →
      (∀ q ∈ sup.foldl cutBySuppress pieces, properRng q ∧ ∃ p ∈ pieces, subRng q p)
      ∧ (∀ q ∈ sup.foldl cutBySuppress pieces, ∀ s ∈ sup, rngDisjoint q s)
      ∧ (∀ x : Pos, (∃ q ∈ sup.foldl cutBySuppress pieces, posMem x q) ↔
          (∃ p ∈ pieces, posMem x p) ∧ ∀ s ∈ sup, ¬ posMem x s) := by
  induction sup with
  | nil =>
    intro pieces hprop
    refine ⟨?_, ?_, ?_⟩
    · intro q hq
      exact ⟨hprop q hq, q, hq, subRng_refl q⟩
    · intro q _ s hs
      exact absurd hs (List.not_mem_nil s)
    · intro x
      simp
  | cons s rest ih =>
    intro pieces hprop
    have hprop' : ∀ q ∈ cutBySuppress pieces s, properRng q := by
      intro q hq
      rw [cutBySuppress_mem] at hq
      obtain ⟨p, hp, hqp⟩ := hq
      exact cutPiece_proper (hprop p hp) hqp
    obtain ⟨ih1, ih2, ih3⟩ := ih (cutBySuppress pieces s) hprop'
    have hsub : ∀ q ∈ (s :: rest).foldl cutBySuppress pieces,
        properRng q ∧ ∃ p ∈ pieces, subRng q p := by
      intro q hq
      rw [List.foldl_cons] at hq
      obtain ⟨hq1, p', hp', hq2⟩ := ih1 q hq
      rw [cutBySuppress_mem] at hp'
      obtain ⟨p, hp, hp'p⟩ := hp'
      exact ⟨hq1, p, hp, subRng_trans hq2 (cutPiece_sub hp'p)⟩
    refine ⟨hsub, ?_, ?_⟩
    · intro q hq s' hs'
      rw [List.mem_cons] at hs'
      rcases hs' with rfl | hs'
      · rw [List.foldl_cons] at hq
        obtain ⟨_, p', hp', hq2⟩ := ih1 q hq
        rw [cutBySuppress_mem] at hp'
        obtain ⟨p, hp, hp'p⟩ := hp'
        exact rngDisjoint_of_subRng (cutPiece_disjoint hp'p) hq2
      · rw [List.foldl_cons] at hq
        exact ih2 q hq s' hs'
    · intro x
      rw [List.foldl_cons, ih3 x, cutBySuppress_posMem]
      constructor
      · rintro ⟨⟨hmem, hns⟩, hrest⟩
        refine ⟨hmem, ?_⟩
        intro s' hs'
        rw [List.mem_cons] at hs'
        rcases hs' with rfl | hs'
        · exact hns
        · exact hrest s' hs'
      · rintro ⟨hmem, hall⟩
        exact ⟨⟨hmem, hall s (List.mem_cons_self s rest)⟩,
          fun s' hs' => hall s' (List.mem_cons_of_mem s hs')⟩

/-- **C1.** Exclusion correctness of the function colorer's
`filterOutSuppressed` (`src/unnamed/part_007`): for every list of
function-block ranges (non-degenerate, as produced by the extractors) and
every published exclusion set, (a) every visible piece is disjoint from every
exclusion range, (b) a block range lying fully inside some exclusion range
contributes no piece at all, and (c) the pieces a block contributes cover
exactly the positions of the block not covered by any exclusion range (the
non-overlapping remainder). -/
theorem filterOutSuppressed_exclusion_correct
    (ranges suppress : List Rng) (hproper : ∀ r ∈ ranges, properRng r) :
    (∀ p ∈ filterOutSuppressed ranges suppress, ∀ s ∈ suppress, rngDisjoint p s)
    ∧ (∀ r ∈ ranges, (∃ s ∈ suppress, insideRng r s) → suppressOne r suppress = [])
    ∧ (∀ r ∈ ranges, ∀ x : Pos,
        (∃ p ∈ suppressOne r suppress, posMem x p) ↔
          posMem x r ∧ ∀ s ∈ suppress, ¬ posMem x s) := by
  have base : ∀ r ∈ ranges,
      (∀ q ∈ suppressOne r suppress, properRng q ∧ subRng q r)
      ∧ (∀ q ∈ suppressOne r suppress, ∀ s ∈ suppress, rngDisjoint q s)
      ∧ (∀ x : Pos, (∃ q ∈ suppressOne r suppress, posMem x q) ↔
          posMem x r ∧ ∀ s ∈ suppress, ¬ posMem x s) := by
    intro r hr
    have hp1 : ∀ q ∈ [r], properRng q := by
      intro q hq
      rw [List.mem_singleton] at hq
      subst hq
      exact hproper _ hr
    obtain ⟨s1, s2, s3⟩ := foldl_cutBySuppress_spec suppress [r] hp1
    refine ⟨?_, s2, ?_⟩
    · intro q hq
      obtain ⟨hq1, p, hp, hq2⟩ := s1 q hq
      rw [List.mem_singleton] at hp
      subst hp
      exact ⟨hq1, hq2⟩
    · intro x
      unfold suppressOne
      rw [s3 x]
      simp
  refine ⟨?_, ?_, fun r hr => (base r hr).2.2⟩
  · intro p hp s hs
    unfold filterOutSuppressed at hp
    split at hp
    · rename_i hemp
      rw [List.isEmpty_iff] at hemp
      subst hemp
      exact absurd hs (List.not_mem_nil s)
    · rw [List.mem_flatMap] at hp
      obtain ⟨r, hr, hpr⟩ := hp
      exact (base r hr).2.1 p hpr s hs
  · intro r hr hinside
    obtain ⟨s0, hs0, hins⟩ := hinside
    cases hres : suppressOne r suppress with
    | nil => rfl
    | cons q t =>
      exfalso
      have hqmem : q ∈ suppressOne r suppress := by
        rw [hres]
        exact List.mem_cons_self q t
      obtain ⟨hq1, hq2⟩ := (base r hr).1 q hqmem
      have hxq : posMem q.start q := properRng_posMem_start hq1
      have : posMem q.start r ∧ ∀ s ∈ suppress, ¬ posMem q.start s :=
        ((base r hr).2.2 q.start).mp ⟨q, hqmem, hxq⟩
      exact this.2 s0 hs0 (insideRng_posMem hins this.1)

/-- Witness for C1 at a concrete input: one function block spanning lines
0–9, one exclusion range spanning lines 2–3. -/
theorem filterOutSuppressed_exclusion_correct_witness :
    (∀ r ∈ [Rng.mk ⟨0, 0⟩ ⟨10, 0⟩], properRng r)
    ∧ ((∀ p ∈ filterOutSuppressed [Rng.mk ⟨0, 0⟩ ⟨10, 0⟩] [Rng.mk ⟨2, 0⟩ ⟨4, 0⟩],
          ∀ s ∈ [Rng.mk ⟨2, 0⟩ ⟨4, 0⟩], rngDisjoint p s)
      ∧ (∀ r ∈ [Rng.mk ⟨0, 0⟩ ⟨10, 0⟩],
          (∃ s ∈ [Rng.mk ⟨2, 0⟩ ⟨4, 0⟩], insideRng r s) →
            suppressOne r [Rng.mk ⟨2, 0⟩ ⟨4, 0⟩] = [])
      ∧ (∀ r ∈ [Rng.mk ⟨0, 0⟩ ⟨10, 0⟩], ∀ x : Pos,
          (∃ p ∈ suppressOne r [Rng.mk ⟨2, 0⟩ ⟨4, 0⟩], posMem x p) ↔
            posMem x r ∧ ∀ s ∈ [Rng.mk ⟨2, 0⟩ ⟨4, 0⟩], ¬ posMem x s)) :=
  ⟨by decide, filterOutSuppressed_exclusion_correct _ _ (by decide)⟩

/-!
## AST function tree (`analyzeFunctionTree`, `src/src/extension.ts` 85–121)

The AST walk collects raw function-like entries (full-line range plus title);
the builder then sorts them by (start ascending, end descending) and
stack-builds the containment tree. The source mutates `Block` objects
(`parent.children.push(b)`); we render that with an arena: nodes live in a
list, and `children`/`roots` hold indices into it.
-/

/-- A raw function-like entry collected by the AST walk of
`analyzeFunctionTree` before tree building: full-line range
(start line, end line) and title. -/
structure RawBlock where
  start : Nat
  stop : Nat
  title : String
deriving DecidableEq, Repr

/-- The sort order used by `raws.sort((a,b) => (a.start - b.start) || (b.end - a.end))`:
start ascending, end descending. -/
def rawKeyLe (a b : RawBlock) : Prop :=
  a.start < b.start ∨ (a.start = b.start ∧ b.stop ≤ a.stop)

instance : DecidableRel rawKeyLe := by
  unfold rawKeyLe
  infer_instance

instance : IsTotal RawBlock rawKeyLe := by
  constructor
  intro a b
  unfold rawKeyLe
  omega

instance : IsTrans RawBlock rawKeyLe := by
  constructor
  intro a b c
  unfold rawKeyLe
  omega

/-- A node of the function tree, mirroring `Block` of `src/src/extension.ts`
(minus the per-node color, which is computed by `colorFor`): full-line range,
title, depth, and the indices of its children in the arena. -/
structure TNode where
  start : Nat
  stop : Nat
  title : String
  depth : Nat
  children : List Nat
deriving DecidableEq, Repr, Inhabited

/-- The containment test of the tree-building loop:
`stack[top].range.start.line <= b.range.start.line && stack[top].range.end.line >= b.range.end.line`. -/
def nodeContains (parent : TNode) (b : RawBlock) : Bool :=
  decide (parent.start ≤ b.start) && decide (b.stop ≤ parent.stop)

/-- The builder state: the arena of all created nodes, the stack of currently
open nodes (head = innermost), and the root indices. -/
structure TreeState where
  arena : List TNode
  stack : List Nat
  roots : List Nat
deriving DecidableEq, Repr

/-- The `while (stack.length && !(top contains b)) stack.pop()` loop. -/
def popStack (arena : List TNode) (b : RawBlock) : List Nat → List Nat
  | [] => []
  | i :: rest =>
    if nodeContains (arena.getD i default) b then i :: rest
    else popStack arena b rest

/-- One iteration of the tree-building `for (const r of raws)` loop: record
`depth` from the pre-pop stack size, pop non-containing entries, then attach
the new node to the new stack top (or to the roots) and push it. -/
def insertBlock (st : TreeState) (b : RawBlock) : TreeState :=
  let depth := st.stack.length
  let stack' := popStack st.arena b st.stack
  let idx := st.arena.length
  let node : TNode := ⟨b.start, b.stop, b.title, depth, []⟩
  let arena' := st.arena ++ [node]
  match stack' with
  | [] => ⟨arena', idx :: stack', st.roots ++ [idx]⟩
  | p :: rest =>
    let parent := arena'.getD p default
    let arena2 := arena'.set p { parent with children := parent.children ++ [idx] }
    ⟨arena2, idx :: p :: rest, st.roots⟩

/-- `analyzeFunctionTree` (`src/src/extension.ts` lines 108–120, tree-building
stage): sort the raw entries by (start asc, end desc) and stack-build the
containment tree. The AST extraction that produces the raw entries is the
external parser; it is the input here. -/
def analyzeFunctionTree (raws : List RawBlock) : TreeState :=
  (List.insertionSort rawKeyLe raws).foldl insertBlock ⟨[], [], []⟩

/-!
## Color assignment (`hashStr` / `colorFor`, `src/src/extension.ts` 52–82)
-/

/-- The fixed ordered palette `RAINBOW` of `src/src/extension.ts`. -/
def RAINBOW : List String :=
  ["rgba(90,169,255,0.18)", "rgba(38,166,154,0.18)", "rgba(140,123,255,0.18)",
   "rgba(255,112,67,0.18)", "rgba(255,214,90,0.18)", "rgba(109,209,124,0.18)"]

/-- JavaScript's 32-bit signed truncation (the `| 0` coercion). -/
def toInt32 (n : Int) : Int := (n + 2 ^ 31) % 2 ^ 32 - 2 ^ 31

/-- One step of `hashStr`: `h = ((h << 5) - h) + s.charCodeAt(i) | 0`.
`h << 5` itself truncates to 32 bits in JavaScript. -/
def hashStep (h : Int) (c : Nat) : Int := toInt32 (toInt32 (h * 32) - h + c)

/-- `hashStr` of `src/src/extension.ts` line 78, ending in `Math.abs(h)`.
Characters are taken as their code points (titles are identifiers, so this
coincides with UTF-16 code units). -/
def hashStr (s : String) : Nat :=
  (s.data.foldl (fun h ch => hashStep h ch.toNat) 0).natAbs

/-- `colorFor` of `src/src/extension.ts` lines 79–82:
`RAINBOW[hashStr(block.title+':'+block.range.start.line) % RAINBOW.length]`. -/
def colorFor (b : TNode) : String :=
  RAINBOW.getD (hashStr (b.title ++ ":" ++ toString b.start) % RAINBOW.length) ""

/-- **C3.** Color determinism: `colorFor` is a pure function of the block's
title and start line — any two blocks agreeing on those (in particular the
same block across two analysis passes over unchanged text) get the same
color — and the color is the entry of the fixed ordered palette `RAINBOW`
selected by the stable hash of (title, start line) taken mod the palette
size. -/
theorem colorFor_deterministic (b b' : TNode)
    (ht : b.title = b'.title) (hs : b.start = b'.start) :
    colorFor b = colorFor b'
    ∧ colorFor b = RAINBOW.getD
        (hashStr (b.title ++ ":" ++ toString b.start) % RAINBOW.length) ""
    ∧ colorFor b ∈ RAINBOW := by
  refine ⟨?_, rfl, ?_⟩
  · unfold colorFor
    rw [ht, hs]
  · unfold colorFor
    have hlt : hashStr (b.title ++ ":" ++ toString b.start) % RAINBOW.length
        < RAINBOW.length := by
      apply Nat.mod_lt
      decide
    rw [List.getD_eq_getElem _ _ hlt]
    exact List.getElem_mem hlt

set_option maxRecDepth 4000 in
/-- Witness for C3: two distinct tree nodes with the same title and start
line (differing in end line, depth and children) receive the same color. -/
theorem colorFor_deterministic_witness :
    (TNode.mk 4 9 "useFoo" 0 []).title = (TNode.mk 4 20 "useFoo" 2 [5]).title
    ∧ (TNode.mk 4 9 "useFoo" 0 []).start = (TNode.mk 4 20 "useFoo" 2 [5]).start
    ∧ colorFor (TNode.mk 4 9 "useFoo" 0 []) = colorFor (TNode.mk 4 20 "useFoo" 2 [5])
    ∧ colorFor (TNode.mk 4 9 "useFoo" 0 []) ∈ RAINBOW := by
  refine ⟨rfl, rfl, ?_, ?_⟩
  · exact (colorFor_deterministic (TNode.mk 4 9 "useFoo" 0 [])
      (TNode.mk 4 20 "useFoo" 2 [5]) rfl rfl).1
  · exact (colorFor_deterministic (TNode.mk 4 9 "useFoo" 0 [])
      (TNode.mk 4 20 "useFoo" 2 [5]) rfl rfl).2.2

/-- The node stored at index `i` of the arena. -/
def nodeAt (arena : List TNode) (i : Nat) : TNode := arena.getD i default

/-- Strict ordering of two arena nodes by both start and end line. Children
of a tree node (and the roots) turn out to be strictly increasing in this
order. -/
def childLt (arena : List TNode) (i j : Nat) : Prop :=
  (nodeAt arena i).start < (nodeAt arena j).start
  ∧ (nodeAt arena i).stop < (nodeAt arena j).stop

/-- Inclusive full-line ranges of two nodes share at least one line. -/
def linesOverlap (a b : TNode) : Prop := a.start ≤ b.stop ∧ b.start ≤ a.stop

instance (arena : List TNode) (i j : Nat) : Decidable (childLt arena i j) := by
  unfold childLt
  infer_instance

instance (a b : TNode) : Decidable (linesOverlap a b) := by
  unfold linesOverlap
  infer_instance

theorem nodeAt_append_lt {arena : List TNode} {nd : TNode} {i : Nat}
    (h : i < arena.length) : nodeAt (arena ++ [nd]) i = nodeAt arena i := by
  unfold nodeAt
  rw [List.getD_eq_getElem?_getD, List.getD_eq_getElem?_getD,
    List.getElem?_append_left h]

theorem nodeAt_append_self {arena : List TNode} {nd : TNode} :
    nodeAt (arena ++ [nd]) arena.length = nd := by
  unfold nodeAt
  rw [List.getD_eq_getElem?_getD, List.getElem?_append_right (Nat.le_refl _)]
  simp

theorem nodeAt_set_ne {arena : List TNode} {p i : Nat} {q : TNode} (h : p ≠ i) :
    nodeAt (arena.set p q) i = nodeAt arena i := by
  unfold nodeAt
  rw [List.getD_eq_getElem?_getD, List.getD_eq_getElem?_getD, List.getElem?_set_ne h]

theorem nodeAt_set_self {arena : List TNode} {p : Nat} {q : TNode}
    (h : p < arena.length) : nodeAt (arena.set p q) p = q := by
  unfold nodeAt
  rw [List.getD_eq_getElem?_getD, List.getElem?_set_self h]
  rfl

theorem nodeAt_mem {arena : List TNode} {i : Nat} (h : i < arena.length) :
    nodeAt arena i ∈ arena := by
  unfold nodeAt
  rw [List.getD_eq_getElem _ _ h]
  exact List.getElem_mem h

theorem popStack_spec (arena : List TNode) (b : RawBlock) :
    ∀ s : List Nat, ∃ popped : List Nat,
      s = popped ++ popStack arena b s
      ∧ ∀ i ∈ popped, nodeContains (nodeAt arena i) b = false := by
  intro s
  induction s with
  | nil => exact ⟨[], rfl, by simp⟩
  | cons i rest ih =>
    unfold popStack
    split
    · exact ⟨[], rfl, by simp⟩
    · rename_i hno
      obtain ⟨popped, heq, hall⟩ := ih
      refine ⟨i :: popped, by rw [List.cons_append, ← heq], ?_⟩
      intro j hj
      rw [List.mem_cons] at hj
      rcases hj with rfl | hj
      · unfold nodeAt
        simpa using hno
      · exact hall j hj

theorem popStack_head {arena : List TNode} {b : RawBlock} {s : List Nat}
    {p : Nat} {rest : List Nat} (h : popStack arena b s = p :: rest) :
    nodeContains (nodeAt arena p) b = true := by
  induction s with
  | nil => simp [popStack] at h
  | cons i r ih =>
    unfold popStack at h
    split at h
    · rename_i hyes
      cases h
      exact hyes
    · exact ih h

theorem popStack_sub {arena : List TNode} {b : RawBlock} {s : List Nat} :
    ∀ i ∈ popStack arena b s, i ∈ s := by
  induction s with
  | nil => simp [popStack]
  | cons j r ih =>
    unfold popStack
    split
    · exact fun i hi => hi
    · exact fun i hi => List.mem_cons_of_mem j (ih i hi)

/-- The per-frame bookkeeping of the tree builder: for a stack (innermost
first) with the already-popped entries `above` on top of it, every child of
a stack entry either still sits above it on the stack or has an entry above
it with a strictly larger end line. -/
def StackInv (arena : List TNode) : List Nat → List Nat → Prop
  | _, [] => True
  | above, i :: rest =>
    (∀ c ∈ (nodeAt arena i).children, c ∈ above ∨
      ∃ u ∈ above, (nodeAt arena c).stop < (nodeAt arena u).stop)
    ∧ StackInv arena (above ++ [i]) rest

theorem StackInv_peel (arena : List TNode) :
    ∀ (popped : List Nat) (above s : List Nat),
      StackInv arena above (popped ++ s) → StackInv arena (above ++ popped) s := by
  intro popped
  induction popped with
  | nil =>
    intro above s h
    simpa using h
  | cons p ps ih =>
    intro above s h
    rw [List.cons_append] at h
    unfold StackInv at h
    have := ih (above ++ [p]) s h.2
    rw [List.append_assoc] at this
    simpa using this

theorem StackInv_transfer {A A2 : List TNode} {idx : Nat}
    (hstop : ∀ i, i ≠ idx → (nodeAt A2 i).stop = (nodeAt A i).stop)
    (hchild2 : ∀ i, i ≠ idx →
      (nodeAt A2 i).children = (nodeAt A i).children ∨
      (nodeAt A2 i).children = (nodeAt A i).children ++ [idx])
    (hcid : ∀ i, i ≠ idx → ∀ c ∈ (nodeAt A i).children, c ≠ idx) :
    ∀ (s aOld aNew : List Nat),
      (∀ i ∈ s, i ≠ idx) →
      StackInv A aOld s →
      idx ∈ aNew →
      (∀ u ∈ aOld, u ≠ idx) →
      (∀ u ∈ aOld, u ∈ aNew ∨ ∃ w ∈ aNew, (nodeAt A2 u).stop < (nodeAt A2 w).stop) →
      StackInv A2 aNew s := by
  intro s
  induction s with
  | nil =>
    intro aOld aNew _ _ _ _ _
    trivial
  | cons e rest ih =>
    intro aOld aNew hsno hold hidxNew haOldNo hmap
    have heno : e ≠ idx := hsno e (List.mem_cons_self e rest)
    unfold StackInv at hold ⊢
    obtain ⟨hhead, htail⟩ := hold
    constructor
    · intro c hc
      rcases hchild2 e heno with hsame | happ
      · rw [hsame] at hc
        have hcno : c ≠ idx := hcid e heno c hc
        rcases hhead c hc with hcin | ⟨u, hu, hlt⟩
        · exact hmap c hcin
        · have huno : u ≠ idx := haOldNo u hu
          rcases hmap u hu with huin | ⟨w, hw, hlt'⟩
          · exact Or.inr ⟨u, huin, by rw [hstop c hcno, hstop u huno]; exact hlt⟩
          · refine Or.inr ⟨w, hw, ?_⟩
            rw [hstop c hcno]
            calc (nodeAt A c).stop < (nodeAt A u).stop := hlt
              _ = (nodeAt A2 u).stop := (hstop u huno).symm
              _ < (nodeAt A2 w).stop := hlt'
      · rw [happ] at hc
        rw [List.mem_append] at hc
        rcases hc with hc | hc
        · have hcno : c ≠ idx := hcid e heno c hc
          rcases hhead c hc with hcin | ⟨u, hu, hlt⟩
          · exact hmap c hcin
          · have huno : u ≠ idx := haOldNo u hu
            rcases hmap u hu with huin | ⟨w, hw, hlt'⟩
            · exact Or.inr ⟨u, huin, by rw [hstop c hcno, hstop u huno]; exact hlt⟩
            · refine Or.inr ⟨w, hw, ?_⟩
              rw [hstop c hcno]
              calc (nodeAt A c).stop < (nodeAt A u).stop := hlt
                _ = (nodeAt A2 u).stop := (hstop u huno).symm
                _ < (nodeAt A2 w).stop := hlt'
        · rw [List.mem_singleton] at hc
          subst hc
          exact Or.inl hidxNew
    · apply ih (aOld ++ [e]) (aNew ++ [e])
      · exact fun i hi => hsno i (List.mem_cons_of_mem e hi)
      · exact htail
      · exact List.mem_append_left _ hidxNew
      · intro u hu
        rw [List.mem_append] at hu
        rcases hu with hu | hu
        · exact haOldNo u hu
        · rw [List.mem_singleton] at hu
          subst hu
          exact heno
      · intro u hu
        rw [List.mem_append] at hu
        rcases hu with hu | hu
        · rcases hmap u hu with huin | ⟨w, hw, hlt⟩
          · exact Or.inl (List.mem_append_left _ huin)
          · exact Or.inr ⟨w, List.mem_append_left _ hw, hlt⟩
        · rw [List.mem_singleton] at hu
          subst hu
          exact Or.inl (List.mem_append_right _ (List.mem_singleton_self u))

theorem nodeContains_iff {p : TNode} {b : RawBlock} :
    nodeContains p b = true ↔ p.start ≤ b.start ∧ b.stop ≤ p.stop := by
  simp [nodeContains]

/-- The sort key relation between an already-inserted node and a later raw
entry: the node's raw entry came no later in the sorted order. -/
def nodeKeyLe (nd : TNode) (b : RawBlock) : Prop :=
  nd.start < b.start ∨ (nd.start = b.start ∧ b.stop ≤ nd.stop)

/-- All invariants of the tree-builder state, maintained by `insertBlock`
over the sorted raw list: index validity, parent-child range containment,
strict (start, end) ordering of every child list and of the roots, and the
per-frame bookkeeping (`StackInv` and its analogue for roots). -/
structure TreeInv (st : TreeState) : Prop where
  hstack : ∀ i ∈ st.stack, i < st.arena.length
  hroots : ∀ i ∈ st.roots, i < st.arena.length
  hchild : ∀ p ∈ st.arena, ∀ c ∈ p.children, c < st.arena.length
  contain : ∀ p ∈ st.arena, ∀ c ∈ p.children,
    p.start ≤ (nodeAt st.arena c).start ∧ (nodeAt st.arena c).stop ≤ p.stop
  corder : ∀ p ∈ st.arena, List.Pairwise (childLt st.arena) p.children
  rorder : List.Pairwise (childLt st.arena) st.roots
  sinv : StackInv st.arena [] st.stack
  rinv : ∀ rt ∈ st.roots, rt ∈ st.stack ∨ ∃ u ∈ st.stack,
    (nodeAt st.arena rt).stop < (nodeAt st.arena u).stop

theorem insertBlock_eq_nil {st : TreeState} {b : RawBlock}
    (hpop : popStack st.arena b st.stack = []) :
    insertBlock st b =
      ⟨st.arena ++ [TNode.mk b.start b.stop b.title st.stack.length []],
        [st.arena.length], st.roots ++ [st.arena.length]⟩ := by
  unfold insertBlock
  rw [hpop]

theorem insertBlock_eq_cons {st : TreeState} {b : RawBlock} {p : Nat} {rest : List Nat}
    (hpop : popStack st.arena b st.stack = p :: rest) :
    insertBlock st b =
      ⟨((st.arena ++ [TNode.mk b.start b.stop b.title st.stack.length []]).set p
          { (st.arena ++ [TNode.mk b.start b.stop b.title st.stack.length []]).getD p default
            with children :=
              ((st.arena ++ [TNode.mk b.start b.stop b.title st.stack.length []]).getD p
                default).children ++ [st.arena.length] }),
        st.arena.length :: p :: rest, st.roots⟩ := by
  unfold insertBlock
  rw [hpop]

theorem insertBlock_inv_nil {st : TreeState} {b : RawBlock} (hinv : TreeInv st)
    (hwm : ∀ nd ∈ st.arena, nodeKeyLe nd b)
    (hpop : popStack st.arena b st.stack = []) :
    TreeInv (insertBlock st b) := by
  obtain ⟨popped, hsplit, hpopped⟩ := popStack_spec st.arena b st.stack
  rw [hpop, List.append_nil] at hsplit
  subst hsplit
  have hstopLt : ∀ i ∈ st.stack, (nodeAt st.arena i).stop < b.stop := by
    intro i hi
    have hkey := hwm _ (nodeAt_mem (hinv.hstack i hi))
    have hnc : ¬ (nodeContains (nodeAt st.arena i) b = true) := by
      simp [hpopped i hi]
    rw [nodeContains_iff] at hnc
    unfold nodeKeyLe at hkey
    omega
  rw [insertBlock_eq_nil hpop]
  have hA2ne : ∀ i, i ≠ st.arena.length →
      nodeAt (st.arena ++ [TNode.mk b.start b.stop b.title st.stack.length []]) i
        = nodeAt st.arena i := by
    intro i hi
    rcases Nat.lt_or_ge i st.arena.length with h | h
    · exact nodeAt_append_lt h
    · unfold nodeAt
      rw [List.getD_eq_default _ _ (by simp; omega), List.getD_eq_default _ _ (by omega)]
  have hA2self :
      nodeAt (st.arena ++ [TNode.mk b.start b.stop b.title st.stack.length []])
        st.arena.length = TNode.mk b.start b.stop b.title st.stack.length [] :=
    nodeAt_append_self
  have hrootsLt : ∀ rt ∈ st.roots,
      (nodeAt st.arena rt).stop < b.stop ∧ (nodeAt st.arena rt).start < b.start := by
    intro rt hrt
    have hstop : (nodeAt st.arena rt).stop < b.stop := by
      rcases hinv.rinv rt hrt with h | ⟨u, hu, hlt⟩
      · exact hstopLt rt h
      · exact lt_trans hlt (hstopLt u hu)
    refine ⟨hstop, ?_⟩
    have hkey := hwm _ (nodeAt_mem (hinv.hroots rt hrt))
    unfold nodeKeyLe at hkey
    omega
  constructor
  · intro i hi
    rw [List.mem_singleton] at hi
    subst hi
    simp
  · intro i hi
    rw [List.mem_append] at hi
    simp only [List.length_append, List.length_singleton]
    rcases hi with hi | hi
    · have := hinv.hroots i hi
      omega
    · rw [List.mem_singleton] at hi
      subst hi
      omega
  · intro nd hnd c hc
    rw [List.mem_append] at hnd
    simp only [List.length_append, List.length_singleton]
    rcases hnd with hnd | hnd
    · have := hinv.hchild nd hnd c hc
      omega
    · rw [List.mem_singleton] at hnd
      subst hnd
      simp at hc
  · intro nd hnd c hc
    rw [List.mem_append] at hnd
    rcases hnd with hnd | hnd
    · rw [hA2ne c (by have := hinv.hchild nd hnd c hc; omega)]
      exact hinv.contain nd hnd c hc
    · rw [List.mem_singleton] at hnd
      subst hnd
      simp at hc
  · intro nd hnd
    rw [List.mem_append] at hnd
    rcases hnd with hnd | hnd
    · apply List.Pairwise.imp_of_mem ?_ (hinv.corder nd hnd)
      intro a c ha hc h
      unfold childLt at h ⊢
      rw [hA2ne a (by have := hinv.hchild nd hnd a ha; omega),
        hA2ne c (by have := hinv.hchild nd hnd c hc; omega)]
      exact h
    · rw [List.mem_singleton] at hnd
      subst hnd
      simp
  · rw [List.pairwise_append]
    refine ⟨?_, by simp, ?_⟩
    · apply List.Pairwise.imp_of_mem ?_ hinv.rorder
      intro a c ha hc h
      unfold childLt at h ⊢
      rw [hA2ne a (by have := hinv.hroots a ha; omega),
        hA2ne c (by have := hinv.hroots c hc; omega)]
      exact h
    · intro rt hrt w hw
      rw [List.mem_singleton] at hw
      subst hw
      unfold childLt
      rw [hA2ne rt (by have := hinv.hroots rt hrt; omega), hA2self]
      exact ⟨(hrootsLt rt hrt).2, (hrootsLt rt hrt).1⟩
  · refine ⟨?_, trivial⟩
    intro c hc
    rw [hA2self] at hc
    simp at hc
  · intro rt hrt
    rw [List.mem_append] at hrt
    rcases hrt with hrt | hrt
    · right
      refine ⟨st.arena.length, List.mem_singleton_self _, ?_⟩
      rw [hA2ne rt (by have := hinv.hroots rt hrt; omega), hA2self]
      exact (hrootsLt rt hrt).1
    · left
      exact hrt

theorem nodeAt_attach_ne {arena : List TNode} {node q : TNode} {p i : Nat}
    (hne : i ≠ p) (hni : i ≠ arena.length) :
    nodeAt ((arena ++ [node]).set p q) i = nodeAt arena i := by
  rw [nodeAt_set_ne (Ne.symm hne)]
  rcases Nat.lt_or_ge i arena.length with h | h
  · exact nodeAt_append_lt h
  · unfold nodeAt
    rw [List.getD_eq_default _ _ (by simp; omega), List.getD_eq_default _ _ (by omega)]

theorem nodeAt_attach_p {arena : List TNode} {node q : TNode} {p : Nat}
    (hp : p < arena.length) :
    nodeAt ((arena ++ [node]).set p q) p = q := by
  apply nodeAt_set_self
  simp only [List.length_append, List.length_singleton]
  omega

theorem nodeAt_attach_idx {arena : List TNode} {node q : TNode} {p : Nat}
    (hp : p < arena.length) :
    nodeAt ((arena ++ [node]).set p q) arena.length = node := by
  rw [nodeAt_set_ne (by omega)]
  exact nodeAt_append_self

theorem insertBlock_inv_cons {st : TreeState} {b : RawBlock} {p : Nat} {rest : List Nat}
    (hinv : TreeInv st) (hwm : ∀ nd ∈ st.arena, nodeKeyLe nd b)
    (hpop : popStack st.arena b st.stack = p :: rest) :
    TreeInv (insertBlock st b) := by
  obtain ⟨popped, hsplit, hpopped⟩ := popStack_spec st.arena b st.stack
  rw [hpop] at hsplit
  have hpoppedStack : ∀ i ∈ popped, i ∈ st.stack := by
    intro i hi
    rw [hsplit]
    exact List.mem_append_left _ hi
  have hpoppedLt : ∀ i ∈ popped, i < st.arena.length :=
    fun i hi => hinv.hstack i (hpoppedStack i hi)
  have hstopLt : ∀ i ∈ popped, (nodeAt st.arena i).stop < b.stop := by
    intro i hi
    have hkey := hwm _ (nodeAt_mem (hpoppedLt i hi))
    have hnc : ¬ (nodeContains (nodeAt st.arena i) b = true) := by
      simp [hpopped i hi]
    rw [nodeContains_iff] at hnc
    unfold nodeKeyLe at hkey
    omega
  have hpmem : p ∈ st.stack := by
    rw [hsplit]
    exact List.mem_append_right _ (List.mem_cons_self p rest)
  have hpLt : p < st.arena.length := hinv.hstack p hpmem
  have hpcont := (nodeContains_iff).mp (popStack_head hpop)
  have hrestStack : ∀ i ∈ p :: rest, i ∈ st.stack := by
    intro i hi
    rw [hsplit]
    exact List.mem_append_right _ hi
  have hrestLt : ∀ i ∈ p :: rest, i < st.arena.length :=
    fun i hi => hinv.hstack i (hrestStack i hi)
  have hsinv_peeled : StackInv st.arena popped (p :: rest) := by
    have hs := hinv.sinv
    rw [hsplit] at hs
    have := StackInv_peel st.arena popped [] (p :: rest) hs
    simpa using this
  have hpchildLt : ∀ c ∈ (nodeAt st.arena p).children,
      (nodeAt st.arena c).stop < b.stop ∧ (nodeAt st.arena c).start < b.start := by
    intro c hc
    have hcLt : c < st.arena.length := hinv.hchild _ (nodeAt_mem hpLt) c hc
    have hs := hsinv_peeled
    unfold StackInv at hs
    have hstop : (nodeAt st.arena c).stop < b.stop := by
      rcases hs.1 c hc with hcp | ⟨u, hu, hlt⟩
      · exact hstopLt c hcp
      · exact lt_trans hlt (hstopLt u hu)
    refine ⟨hstop, ?_⟩
    have hkey := hwm _ (nodeAt_mem hcLt)
    unfold nodeKeyLe at hkey
    omega
  rw [insertBlock_eq_cons hpop]
  rw [show (st.arena ++ [TNode.mk b.start b.stop b.title st.stack.length []]).getD p default
      = nodeAt st.arena p from nodeAt_append_lt hpLt]
  set nodeb := TNode.mk b.start b.stop b.title st.stack.length [] with hnodeb
  set qp := { nodeAt st.arena p with
    children := (nodeAt st.arena p).children ++ [st.arena.length] } with hqp
  set A2 := (st.arena ++ [nodeb]).set p qp with hA2
  have hA2len : A2.length = st.arena.length + 1 := by
    rw [hA2]
    simp
  have hat_ne : ∀ i, i ≠ p → i ≠ st.arena.length → nodeAt A2 i = nodeAt st.arena i :=
    fun i h1 h2 => nodeAt_attach_ne h1 h2
  have hat_p : nodeAt A2 p = qp := nodeAt_attach_p hpLt
  have hat_idx : nodeAt A2 st.arena.length = nodeb := nodeAt_attach_idx hpLt
  have hqps : qp.start = (nodeAt st.arena p).start := rfl
  have hqpe : qp.stop = (nodeAt st.arena p).stop := rfl
  have hqpc : qp.children = (nodeAt st.arena p).children ++ [st.arena.length] := rfl
  have hstart2 : ∀ i, i ≠ st.arena.length →
      (nodeAt A2 i).start = (nodeAt st.arena i).start := by
    intro i hi
    by_cases hp' : i = p
    · subst hp'
      rw [hat_p, hqps]
    · rw [hat_ne i hp' hi]
  have hstop2 : ∀ i, i ≠ st.arena.length →
      (nodeAt A2 i).stop = (nodeAt st.arena i).stop := by
    intro i hi
    by_cases hp' : i = p
    · subst hp'
      rw [hat_p, hqpe]
    · rw [hat_ne i hp' hi]
  have hchildren2 : ∀ i, i ≠ st.arena.length →
      (nodeAt A2 i).children = (nodeAt st.arena i).children ∨
      (nodeAt A2 i).children = (nodeAt st.arena i).children ++ [st.arena.length] := by
    intro i hi
    by_cases hp' : i = p
    · subst hp'
      rw [hat_p, hqpc]
      exact Or.inr rfl
    · rw [hat_ne i hp' hi]
      exact Or.inl rfl
  have hmemA2 : ∀ nd ∈ A2, nd ∈ st.arena ∨ nd = nodeb ∨ nd = qp := by
    intro nd hnd
    rw [hA2] at hnd
    rcases List.mem_or_eq_of_mem_set hnd with hnd | hnd
    · rw [List.mem_append] at hnd
      rcases hnd with hnd | hnd
      · exact Or.inl hnd
      · rw [List.mem_singleton] at hnd
        exact Or.inr (Or.inl hnd)
    · exact Or.inr (Or.inr hnd)
  have hbstopnodeb : nodeb.stop = b.stop := rfl
  have hbstartnodeb : nodeb.start = b.start := rfl
  have hnodebc : nodeb.children = [] := rfl
  constructor
  · intro i hi
    rw [hA2len]
    rcases List.mem_cons.mp hi with rfl | hi
    · omega
    · have := hrestLt i hi
      omega
  · intro i hi
    rw [hA2len]
    have := hinv.hroots i hi
    omega
  · intro nd hnd c hc
    rw [hA2len]
    rcases hmemA2 nd hnd with hnd | hnd | hnd
    · have := hinv.hchild nd hnd c hc
      omega
    · rw [hnd, hnodebc] at hc
      simp at hc
    · rw [hnd, hqpc, List.mem_append] at hc
      rcases hc with hc | hc
      · have := hinv.hchild _ (nodeAt_mem hpLt) c hc
        omega
      · rw [List.mem_singleton] at hc
        omega
  · intro nd hnd c hc
    rcases hmemA2 nd hnd with hnd | hnd | hnd
    · have hcLt := hinv.hchild nd hnd c hc
      rw [hstart2 c (by omega), hstop2 c (by omega)]
      exact hinv.contain nd hnd c hc
    · rw [hnd, hnodebc] at hc
      simp at hc
    · rw [hnd, hqpc, List.mem_append] at hc
      rw [hnd, hqps, hqpe]
      rcases hc with hc | hc
      · have hcLt := hinv.hchild _ (nodeAt_mem hpLt) c hc
        rw [hstart2 c (by omega), hstop2 c (by omega)]
        exact hinv.contain _ (nodeAt_mem hpLt) c hc
      · rw [List.mem_singleton] at hc
        subst hc
        rw [hat_idx, hbstartnodeb, hbstopnodeb]
        exact hpcont
  · intro nd hnd
    rcases hmemA2 nd hnd with hnd | hnd | hnd
    · apply List.Pairwise.imp_of_mem ?_ (hinv.corder nd hnd)
      intro a c ha hc h
      unfold childLt at h ⊢
      rw [hstart2 a (by have := hinv.hchild nd hnd a ha; omega),
        hstop2 a (by have := hinv.hchild nd hnd a ha; omega),
        hstart2 c (by have := hinv.hchild nd hnd c hc; omega),
        hstop2 c (by have := hinv.hchild nd hnd c hc; omega)]
      exact h
    · rw [hnd, hnodebc]
      exact List.Pairwise.nil
    · rw [hnd, hqpc]
      rw [List.pairwise_append]
      refine ⟨?_, by simp, ?_⟩
      · apply List.Pairwise.imp_of_mem ?_ (hinv.corder _ (nodeAt_mem hpLt))
        intro a c ha hc h
        unfold childLt at h ⊢
        rw [hstart2 a (by have := hinv.hchild _ (nodeAt_mem hpLt) a ha; omega),
          hstop2 a (by have := hinv.hchild _ (nodeAt_mem hpLt) a ha; omega),
          hstart2 c (by have := hinv.hchild _ (nodeAt_mem hpLt) c hc; omega),
          hstop2 c (by have := hinv.hchild _ (nodeAt_mem hpLt) c hc; omega)]
        exact h
      · intro c hc w hw
        rw [List.mem_singleton] at hw
        subst hw
        unfold childLt
        have hcLt := hinv.hchild _ (nodeAt_mem hpLt) c hc
        rw [hstart2 c (by omega), hstop2 c (by omega), hat_idx, hbstartnodeb, hbstopnodeb]
        exact ⟨(hpchildLt c hc).2, (hpchildLt c hc).1⟩
  · apply List.Pairwise.imp_of_mem ?_ hinv.rorder
    intro a c ha hc h
    unfold childLt at h ⊢
    rw [hstart2 a (by have := hinv.hroots a ha; omega),
      hstop2 a (by have := hinv.hroots a ha; omega),
      hstart2 c (by have := hinv.hroots c hc; omega),
      hstop2 c (by have := hinv.hroots c hc; omega)]
    exact h
  · refine ⟨?_, ?_⟩
    · intro c hc
      rw [hat_idx, hnodebc] at hc
      simp at hc
    · apply @StackInv_transfer st.arena _ _ hstop2 hchildren2
        ?_ (p :: rest) popped [st.arena.length] ?_ hsinv_peeled ?_ ?_ ?_
      · intro i hi c hc
        rcases Nat.lt_or_ge i st.arena.length with h | h
        · have := hinv.hchild _ (nodeAt_mem h) c hc
          omega
        · unfold nodeAt at hc
          rw [List.getD_eq_default _ _ h] at hc
          have hde : (default : TNode).children = [] := rfl
          rw [hde] at hc
          simp at hc
      · intro i hi
        have := hrestLt i hi
        omega
      · exact List.mem_singleton_self _
      · intro u hu
        have := hpoppedLt u hu
        omega
      · intro u hu
        right
        refine ⟨st.arena.length, List.mem_singleton_self _, ?_⟩
        rw [hstop2 u (by have := hpoppedLt u hu; omega), hat_idx, hbstopnodeb]
        exact hstopLt u hu
  · intro rt hrt
    have hrtLt := hinv.hroots rt hrt
    rcases hinv.rinv rt hrt with hin | ⟨u, hu, hlt⟩
    · rw [hsplit, List.mem_append] at hin
      rcases hin with hin | hin
      · right
        refine ⟨st.arena.length, ?_, ?_⟩
        · exact List.mem_cons_self _ _
        · rw [hstop2 rt (by omega), hat_idx, hbstopnodeb]
          exact hstopLt rt hin
      · left
        exact List.mem_cons_of_mem _ hin
    · rw [hsplit, List.mem_append] at hu
      rcases hu with hu | hu
      · right
        refine ⟨st.arena.length, List.mem_cons_self _ _, ?_⟩
        rw [hstop2 rt (by omega), hat_idx, hbstopnodeb]
        exact lt_trans hlt (hstopLt u hu)
      · right
        refine ⟨u, List.mem_cons_of_mem _ hu, ?_⟩
        rw [hstop2 rt (by omega), hstop2 u (by have := hrestLt u hu; omega)]
        exact hlt

theorem insertBlock_inv {st : TreeState} {b : RawBlock} (hinv : TreeInv st)
    (hwm : ∀ nd ∈ st.arena, nodeKeyLe nd b) : TreeInv (insertBlock st b) := by
  cases hpop : popStack st.arena b st.stack with
  | nil => exact insertBlock_inv_nil hinv hwm hpop
  | cons p rest => exact insertBlock_inv_cons hinv hwm hpop

theorem insertBlock_arena_stop {st : TreeState} {b : RawBlock} (hinv : TreeInv st) :
    ∀ nd ∈ (insertBlock st b).arena,
      (∃ nd' ∈ st.arena, nd.start = nd'.start ∧ nd.stop = nd'.stop)
      ∨ (nd.start = b.start ∧ nd.stop = b.stop) := by
  intro nd hnd
  cases hpop : popStack st.arena b st.stack with
  | nil =>
    rw [insertBlock_eq_nil hpop] at hnd
    rw [List.mem_append] at hnd
    rcases hnd with hnd | hnd
    · exact Or.inl ⟨nd, hnd, rfl, rfl⟩
    · rw [List.mem_singleton] at hnd
      subst hnd
      exact Or.inr ⟨rfl, rfl⟩
  | cons p rest =>
    rw [insertBlock_eq_cons hpop] at hnd
    rcases List.mem_or_eq_of_mem_set hnd with hnd | hnd
    · rw [List.mem_append] at hnd
      rcases hnd with hnd | hnd
      · exact Or.inl ⟨nd, hnd, rfl, rfl⟩
      · rw [List.mem_singleton] at hnd
        subst hnd
        exact Or.inr ⟨rfl, rfl⟩
    · subst hnd
      have hpLt : p < st.arena.length := by
        apply hinv.hstack
        apply popStack_sub
        rw [hpop]
        exact List.mem_cons_self p rest
      rw [show (st.arena ++ [TNode.mk b.start b.stop b.title st.stack.length []]).getD p default
          = nodeAt st.arena p from nodeAt_append_lt hpLt]
      exact Or.inl ⟨nodeAt st.arena p, nodeAt_mem hpLt, rfl, rfl⟩

theorem foldl_insertBlock_inv :
    ∀ (rs : List RawBlock) (st : TreeState), TreeInv st →
      List.Pairwise rawKeyLe rs →
      (∀ b ∈ rs, ∀ nd ∈ st.arena, nodeKeyLe nd b) →
      TreeInv (rs.foldl insertBlock st) := by
  intro rs
  induction rs with
  | nil =>
    intro st hinv _ _
    exact hinv
  | cons b rest ih =>
    intro st hinv hsorted hwm
    rw [List.foldl_cons]
    rw [List.pairwise_cons] at hsorted
    apply ih (insertBlock st b) (insertBlock_inv hinv (hwm b (List.mem_cons_self b rest)))
      hsorted.2
    intro b' hb' nd hnd
    rcases insertBlock_arena_stop hinv nd hnd with ⟨nd', hnd', hs, he⟩ | ⟨hs, he⟩
    · have := hwm b' (List.mem_cons_of_mem b hb') nd' hnd'
      unfold nodeKeyLe at *
      omega
    · have := hsorted.1 b' hb'
      unfold rawKeyLe at this
      unfold nodeKeyLe
      omega

/-- **C2 counterexample.** Sibling ranges in the tree built by
`analyzeFunctionTree` can overlap. The raw input below is what the AST walk
produces for the real source

```
function outer(){
  function a(){
    x
  } function b(){
    y
  }
}
```

(`a` spans lines 1–3, `b` spans lines 3–5, sharing line 3): both are attached
as children of `outer`, and their inclusive full-line ranges overlap. -/
theorem analyzeFunctionTree_sibling_overlap_cex :
    ∃ nd ∈ (analyzeFunctionTree
        [⟨0, 6, "outer"⟩, ⟨1, 3, "a"⟩, ⟨3, 5, "b"⟩]).arena,
      ∃ i ∈ nd.children, ∃ j ∈ nd.children, i ≠ j ∧
        linesOverlap
          (nodeAt (analyzeFunctionTree
            [⟨0, 6, "outer"⟩, ⟨1, 3, "a"⟩, ⟨3, 5, "b"⟩]).arena i)
          (nodeAt (analyzeFunctionTree
            [⟨0, 6, "outer"⟩, ⟨1, 3, "a"⟩, ⟨3, 5, "b"⟩]).arena j) := by
  decide

/-- **C2 (amended).** For every raw block list, in the interval tree built by
`analyzeFunctionTree`: every child's full-line range is contained in its
parent's range (`child.start ≥ parent.start` and `child.end ≤ parent.end`),
and the children of any node — likewise the roots — are strictly increasing
in both start and end line (so no sibling contains or duplicates another).
Sibling ranges may however overlap (share boundary lines), see
`analyzeFunctionTree_sibling_overlap_cex`. -/
theorem analyzeFunctionTree_invariants (raws : List RawBlock) :
    (∀ nd ∈ (analyzeFunctionTree raws).arena, ∀ c ∈ nd.children,
        nd.start ≤ (nodeAt (analyzeFunctionTree raws).arena c).start
        ∧ (nodeAt (analyzeFunctionTree raws).arena c).stop ≤ nd.stop)
    ∧ (∀ nd ∈ (analyzeFunctionTree raws).arena,
        List.Pairwise (childLt (analyzeFunctionTree raws).arena) nd.children)
    ∧ List.Pairwise (childLt (analyzeFunctionTree raws).arena)
        (analyzeFunctionTree raws).roots := by
  have hinv0 : TreeInv ⟨[], [], []⟩ := by
    refine ⟨?_, ?_, ?_, ?_, ?_, ?_, ?_, ?_⟩ <;> simp [StackInv]
  have hsorted := List.sorted_insertionSort rawKeyLe raws
  have hinv := foldl_insertBlock_inv (List.insertionSort rawKeyLe raws) ⟨[], [], []⟩
    hinv0 hsorted (by intro b _ nd hnd; simp at hnd)
  exact ⟨hinv.contain, hinv.corder, hinv.rorder⟩

/-!
## Region marker scan (`parseRegions`, `src/unnamed/part_004` lines 55–127)

Each document line is pre-classified by the two regexes `REGION_OPEN_RE` /
`REGION_CLOSE_RE` (a trailing `// #region [label]` / `// #endregion [label]`
comment, close tested first); the scan itself consumes that classification,
so a document is a list of `RegionTok`. Ranges are modelled at line
granularity: `lineRange` clips the end position to the end of the end line,
so comparisons between produced ranges coincide with comparisons of their
line numbers.
-/

/-- The classification of one source line for the region scan: an open
marker with its captured label (if any), a close marker with its captured
label (if any), or any other line. -/
inductive RegionTok where
  | openM (label : Option String)
  | closeM (label : Option String)
  | other
deriving DecidableEq, Repr

/-- Whitespace as collapsed by `normLabel` (JavaScript `\s`, restricted to
the characters that can appear inside a captured label). -/
def jsWs (c : Char) : Bool := c == ' ' || c == '\t' || c == '\n' || c == '\r'

/-- Single left-to-right pass of `.replace(/\s+/g, ' ')`: every maximal
whitespace run becomes one space. -/
def collapseWsAux : Bool → List Char → List Char
  | _, [] => []
  | prevWs, c :: rest =>
    if jsWs c then
      if prevWs then collapseWsAux true rest
      else ' ' :: collapseWsAux true rest
    else c :: collapseWsAux false rest

/-- `normLabel` of `src/unnamed/part_004` lines 33–40: missing or empty
labels become the sentinel `"__default__"`; otherwise fold full-width spaces
to half-width, trim, collapse internal whitespace and lowercase. -/
def normLabel (raw : Option String) : String :=
  match raw with
  | none => "__default__"
  | some s =>
    if s.isEmpty then "__default__"
    else
      let cs := s.data.map (fun c => if c = '　' then ' ' else c)
      let trimmed := ((cs.dropWhile (fun c => jsWs c)).reverse.dropWhile
        (fun c => jsWs c)).reverse
      ⟨(collapseWsAux false trimmed).map Char.toLower⟩

/-- An open frame of the scan: normalized label and the open-marker line. -/
structure RFrame where
  label : String
  line : Nat
deriving DecidableEq, Repr

/-- A produced region range, spanning full lines `startLine`–`endLine`
inclusive (`lineRange` in the source). -/
structure LineRng where
  startLine : Nat
  endLine : Nat
deriving DecidableEq, Repr

/-- The labeled-close search of `parseRegions` lines 74–81: walk the stack
from the top (list head) down to the nearest frame with a matching label
and remove exactly that frame (`stack.splice(idx, 1)`). -/
def removeNearest (lbl : String) : List RFrame → Option (RFrame × List RFrame)
  | [] => none
  | f :: rest =>
    if f.label = lbl then some (f, rest)
    else
      match removeNearest lbl rest with
      | some (g, rest') => some (g, f :: rest')
      | none => none

/-- One line of the `parseRegions` scan, acting on (stack, out). A close
marker is handled first; an unlabeled close pops the top frame, a labeled
close removes the nearest matching frame (and is ignored when no frame
matches or the stack is empty). -/
def parseStep (st : List RFrame × List LineRng) (i : Nat) (tok : RegionTok) :
    List RFrame × List LineRng :=
  match tok with
  | .closeM raw =>
    let lbl := normLabel raw
    match st.1 with
    | [] => st
    | f :: rest =>
      if lbl = "__default__" then (rest, st.2 ++ [⟨f.line, i⟩])
      else
        match removeNearest lbl (f :: rest) with
        | some (g, rest') => (rest', st.2 ++ [⟨g.line, i⟩])
        | none => st
  | .openM raw => (⟨normLabel raw, i⟩ :: st.1, st.2)
  | .other => st

/-- The line loop of `parseRegions`, threading the line index. -/
def parseScanAux : Nat → (List RFrame × List LineRng) → List RegionTok →
    List RFrame × List LineRng
  | _, st, [] => st
  | i, st, t :: rest => parseScanAux (i + 1) (parseStep st i t) rest

/-- The full scan of `parseRegions` (lines 60–94): final stack (unclosed
opens, discarded) and collected ranges. -/
def parseScan (doc : List RegionTok) : List RFrame × List LineRng :=
  parseScanAux 0 ([], []) doc

/-- The comparator of `sortByStart` (lines 102–106): start ascending, then
end ascending. -/
def rngLe (a b : LineRng) : Prop :=
  a.startLine < b.startLine ∨ (a.startLine = b.startLine ∧ a.endLine ≤ b.endLine)

instance : DecidableRel rngLe := by
  unfold rngLe
  infer_instance

instance : IsTotal LineRng rngLe := by
  constructor
  intro a b
  unfold rngLe
  omega

instance : IsTrans LineRng rngLe := by
  constructor
  intro a b c
  unfold rngLe
  omega

/-- `sortByStart` of `src/unnamed/part_004`. -/
def sortByStart (rs : List LineRng) : List LineRng := List.insertionSort rngLe rs

/-- One step of `outermostOnly` (lines 108–127), comparing the candidate
only against the last kept range: skip it when fully covered, on proper
overlap append it only when it extends further right, otherwise append. -/
def outermostStep (out : List LineRng) (r : LineRng) : List LineRng :=
  match out.getLast? with
  | none => out ++ [r]
  | some last =>
    if last.startLine ≤ r.startLine ∧ r.endLine ≤ last.endLine then out
    else if r.startLine ≤ last.endLine ∧ last.startLine ≤ r.endLine then
      if last.endLine < r.endLine then out ++ [r] else out
    else out ++ [r]

/-- `outermostOnly` of `src/unnamed/part_004`. -/
def outermostOnly (rs : List LineRng) : List LineRng := rs.foldl outermostStep []

/-- `parseRegions` of `src/unnamed/part_004` lines 55–100: scan, drop
unclosed opens, sort by start and keep only outermost ranges. -/
def parseRegions (doc : List RegionTok) : List LineRng :=
  outermostOnly (sortByStart (parseScan doc).2)

/-- **C4.** An unlabeled close marker closes the most recently opened
still-open marker regardless of its label: in general the scan step pops
exactly the top frame and emits the range from that frame's line to the
close line; on `#region A` / `#region B` / unlabeled `#endregion` the
produced range is lines 1–2, closing `B` and leaving `A` (line 0) open. -/
theorem parseRegions_unlabeled_close_innermost :
    (∀ (f : RFrame) (rest : List RFrame) (out : List LineRng) (i : Nat),
      parseStep (f :: rest, out) i (.closeM none) = (rest, out ++ [⟨f.line, i⟩]))
    ∧ parseRegions [.openM (some "A"), .openM (some "B"), .closeM none]
        = [⟨1, 2⟩] := by
  constructor
  · intro f rest out i
    rfl
  · decide

/-- **C5 counterexample.** A close marker carrying the literal label
`__default__` collides with the internal sentinel: although no open frame
has a matching label (the only frame is labeled `a`), the close is not
ignored — it pops the top frame and produces a range, contradicting the
claim that a labeled close with no matching frame is ignored. -/
theorem parseRegions_labeled_close_sentinel_cex :
    parseRegions [.openM (some "A"), .closeM (some "__default__")] = [⟨0, 1⟩]
    ∧ normLabel (some "A") ≠ normLabel (some "__default__")
    ∧ parseRegions [.openM (some "A"), .closeM (some "__default__")] ≠ [] := by
  refine ⟨by decide, by decide, by decide⟩

theorem removeNearest_spec (lbl : String) :
    ∀ (stack : List RFrame) (g : RFrame) (rest' : List RFrame),
      removeNearest lbl stack = some (g, rest') →
      g.label = lbl ∧ ∃ above below, stack = above ++ g :: below
        ∧ rest' = above ++ below ∧ ∀ f ∈ above, f.label ≠ lbl := by
  intro stack
  induction stack with
  | nil =>
    intro g r h
    simp [removeNearest] at h
  | cons f rest ih =>
    intro g r h
    unfold removeNearest at h
    split at h
    · rename_i heq
      cases h
      exact ⟨heq, [], rest, rfl, rfl, by simp⟩
    · rename_i hne
      cases hrec : removeNearest lbl rest with
      | none =>
        rw [hrec] at h
        cases h
      | some pr =>
        obtain ⟨g', rest''⟩ := pr
        rw [hrec] at h
        cases h
        obtain ⟨hl, above, below, hs, hr, hab⟩ := ih _ _ hrec
        refine ⟨hl, f :: above, below, by rw [List.cons_append, ← hs],
          by rw [List.cons_append, ← hr], ?_⟩
        intro x hx
        rcases List.mem_cons.mp hx with rfl | hx
        · exact hne
        · exact hab x hx

theorem removeNearest_none (lbl : String) :
    ∀ stack : List RFrame, removeNearest lbl stack = none →
      ∀ f ∈ stack, f.label ≠ lbl := by
  intro stack
  induction stack with
  | nil =>
    intro _ f hf
    cases hf
  | cons f rest ih =>
    intro h g hg
    unfold removeNearest at h
    split at h
    · cases h
    · rename_i hne
      rcases List.mem_cons.mp hg with rfl | hg
      · exact hne
      · cases hrec : removeNearest lbl rest with
        | none => exact ih hrec g hg
        | some pr =>
          rw [hrec] at h
          obtain ⟨_, _⟩ := pr
          cases h

/-- **C5 (amended).** For a close marker whose normalized label is not the
internal sentinel `__default__`, the scan step removes exactly the nearest
(top-down) open frame with a matching label — all other frames, including
more recently opened ones, remain open in their order — and when no frame
matches, the close is ignored without error. (A close whose label normalizes
to `__default__` instead behaves like an unlabeled close, see
`parseRegions_labeled_close_sentinel_cex`.) -/
theorem parseStep_labeled_close (stack : List RFrame) (out : List LineRng)
    (i : Nat) (raw : String) (hne : normLabel (some raw) ≠ "__default__") :
    (∀ g rest', removeNearest (normLabel (some raw)) stack = some (g, rest') →
      parseStep (stack, out) i (.closeM (some raw)) = (rest', out ++ [⟨g.line, i⟩])
      ∧ g.label = normLabel (some raw)
      ∧ ∃ above below, stack = above ++ g :: below ∧ rest' = above ++ below
        ∧ ∀ f ∈ above, f.label ≠ normLabel (some raw))
    ∧ (removeNearest (normLabel (some raw)) stack = none →
      parseStep (stack, out) i (.closeM (some raw)) = (stack, out)
      ∧ ∀ f ∈ stack, f.label ≠ normLabel (some raw)) := by
  constructor
  · intro g rest' hrm
    refine ⟨?_, (removeNearest_spec _ _ _ _ hrm).1, (removeNearest_spec _ _ _ _ hrm).2⟩
    cases stack with
    | nil => simp [removeNearest] at hrm
    | cons f rest =>
      unfold parseStep
      simp only
      rw [if_neg hne, hrm]
  · intro hrm
    refine ⟨?_, removeNearest_none _ _ hrm⟩
    cases stack with
    | nil => rfl
    | cons f rest =>
      unfold parseStep
      simp only
      rw [if_neg hne, hrm]

/-- Witness for C5 (amended) at a concrete input: with frames `b` (top,
line 3) over `a` (line 1), the close `#endregion A` removes the `a` frame,
produces the range 1–5, and keeps the more recent `b` frame open. -/
theorem parseStep_labeled_close_witness :
    normLabel (some "A") ≠ "__default__"
    ∧ ((∀ g rest',
        removeNearest (normLabel (some "A")) [⟨"b", 3⟩, ⟨"a", 1⟩] = some (g, rest') →
        parseStep ([⟨"b", 3⟩, ⟨"a", 1⟩], []) 5 (.closeM (some "A"))
            = (rest', [] ++ [⟨g.line, 5⟩])
        ∧ g.label = normLabel (some "A")
        ∧ ∃ above below, [⟨"b", 3⟩, ⟨"a", 1⟩] = above ++ g :: below
          ∧ rest' = above ++ below ∧ ∀ f ∈ above, f.label ≠ normLabel (some "A"))
      ∧ (removeNearest (normLabel (some "A")) [⟨"b", 3⟩, ⟨"a", 1⟩] = none →
        parseStep ([⟨"b", 3⟩, ⟨"a", 1⟩], []) 5 (.closeM (some "A"))
            = ([⟨"b", 3⟩, ⟨"a", 1⟩], [])
        ∧ ∀ f ∈ [RFrame.mk "b" 3, RFrame.mk "a" 1],
            f.label ≠ normLabel (some "A"))) :=
  ⟨by decide, parseStep_labeled_close [⟨"b", 3⟩, ⟨"a", 1⟩] [] 5 "A" (by decide)⟩

/-- **C7 counterexample.** For the balanced, uniquely-labeled but *nested*
pairs `A` (lines 0–3) around `B` (lines 1–2), the scan does produce one
range per pair, but the parser output (`parseRegions`, which ends with
`outermostOnly`) keeps only the outer range — not one range per pair. -/
theorem parseRegions_nested_pairs_cex :
    parseRegions [.openM (some "A"), .openM (some "B"), .closeM (some "B"),
        .closeM (some "A")] = [⟨0, 3⟩]
    ∧ (parseScan [.openM (some "A"), .openM (some "B"), .closeM (some "B"),
        .closeM (some "A")]).2 = [⟨1, 2⟩, ⟨0, 3⟩] := by
  refine ⟨by decide, by decide⟩

theorem outermostStep_mem {out : List LineRng} {r x : LineRng}
    (hx : x ∈ outermostStep out r) : x ∈ out ∨ x = r := by
  unfold outermostStep at hx
  split at hx
  · simp only [List.mem_append, List.mem_singleton] at hx
    exact hx
  · split at hx
    · exact Or.inl hx
    · split at hx
      · split at hx
        · simp only [List.mem_append, List.mem_singleton] at hx
          exact hx
        · exact Or.inl hx
      · simp only [List.mem_append, List.mem_singleton] at hx
        exact hx

theorem outermostOnly_subset :
    ∀ (rs acc : List LineRng) (x : LineRng),
      x ∈ rs.foldl outermostStep acc → x ∈ acc ∨ x ∈ rs := by
  intro rs
  induction rs with
  | nil =>
    intro acc x hx
    exact Or.inl hx
  | cons r rest ih =>
    intro acc x hx
    rw [List.foldl_cons] at hx
    rcases ih (outermostStep acc r) x hx with hx | hx
    · rcases outermostStep_mem hx with hx | hx
      · exact Or.inl hx
      · exact Or.inr (by rw [hx]; exact List.mem_cons_self r rest)
    · exact Or.inr (List.mem_cons_of_mem r hx)

/-- The invariant of the region scan after processing lines `0..i-1`: open
frames and produced ranges start strictly below `i`, open frames carry
pairwise distinct lines, and no open frame's line is the start of an
already-produced range. -/
def ScanInv (st : List RFrame × List LineRng) (i : Nat) : Prop :=
  (∀ f ∈ st.1, f.line < i)
  ∧ (∀ r ∈ st.2, r.startLine < i)
  ∧ List.Pairwise (fun a b => a.line ≠ b.line) st.1
  ∧ (∀ f ∈ st.1, ∀ r ∈ st.2, f.line ≠ r.startLine)

theorem parseStep_scanInv {stk : List RFrame} {out : List LineRng} {i : Nat}
    {tok : RegionTok} (h : ScanInv (stk, out) i) :
    ScanInv (parseStep (stk, out) i tok) (i + 1) := by
  obtain ⟨h1, h2, h3, h4⟩ := h
  simp only at h1 h2 h3 h4
  cases tok with
  | other =>
    exact ⟨fun f hf => by have := h1 f hf; omega,
      fun r hr => by have := h2 r hr; omega, h3, h4⟩
  | openM raw =>
    show ScanInv (⟨normLabel raw, i⟩ :: stk, out) (i + 1)
    have hl : (RFrame.mk (normLabel raw) i).line = i := rfl
    refine ⟨?_, ?_, ?_, ?_⟩
    · intro f hf
      rcases List.mem_cons.mp hf with rfl | hf
      · rw [hl]
        omega
      · have := h1 f hf
        omega
    · intro r hr
      have := h2 r hr
      omega
    · rw [List.pairwise_cons]
      refine ⟨?_, h3⟩
      intro f hf
      have := h1 f hf
      rw [hl]
      omega
    · intro f hf r hr
      rcases List.mem_cons.mp hf with rfl | hf
      · have := h2 r hr
        rw [hl]
        omega
      · exact h4 f hf r hr
  | closeM raw =>
    cases stk with
    | nil =>
      refine ⟨?_, ?_, ?_, ?_⟩
      · intro f hf
        cases hf
      · intro r hr
        have := h2 r hr
        omega
      · exact List.Pairwise.nil
      · intro f hf
        cases hf
    | cons f rest =>
      unfold parseStep
      simp only
      by_cases hdef : normLabel raw = "__default__"
      · rw [if_pos hdef]
        refine ⟨?_, ?_, ?_, ?_⟩
        · intro g hg
          have := h1 g (List.mem_cons_of_mem f hg)
          omega
        · intro r hr
          rw [List.mem_append] at hr
          rcases hr with hr | hr
          · have := h2 r hr
            omega
          · rw [List.mem_singleton] at hr
            subst hr
            have := h1 f (List.mem_cons_self f rest)
            have hsl : (LineRng.mk f.line i).startLine = f.line := rfl
            rw [hsl]
            omega
        · exact (List.pairwise_cons.mp h3).2
        · intro g hg r hr
          rw [List.mem_append] at hr
          rcases hr with hr | hr
          · exact h4 g (List.mem_cons_of_mem f hg) r hr
          · rw [List.mem_singleton] at hr
            subst hr
            exact ((List.pairwise_cons.mp h3).1 g hg).symm
      · rw [if_neg hdef]
        cases hrm : removeNearest (normLabel raw) (f :: rest) with
        | none =>
          show ScanInv (f :: rest, out) (i + 1)
          refine ⟨?_, ?_, h3, h4⟩
          · intro g hg
            have := h1 g hg
            omega
          · intro r hr
            have := h2 r hr
            omega
        | some pr =>
          obtain ⟨g, rest'⟩ := pr
          obtain ⟨hgl, above, below, hdec, hdec', hab⟩ :=
            removeNearest_spec _ _ _ _ hrm
          show ScanInv (rest', out ++ [⟨g.line, i⟩]) (i + 1)
          have hmemStack : ∀ x ∈ rest', x ∈ f :: rest := by
            intro x hx
            rw [hdec', List.mem_append] at hx
            rw [hdec, List.mem_append]
            rcases hx with hx | hx
            · exact Or.inl hx
            · exact Or.inr (List.mem_cons_of_mem g hx)
          have hgmem : g ∈ f :: rest := by
            rw [hdec, List.mem_append]
            exact Or.inr (List.mem_cons_self g below)
          have hgdistinct : ∀ x ∈ rest', x.line ≠ g.line := by
            rw [hdec] at h3
            rw [List.pairwise_append] at h3
            intro x hx
            rw [hdec', List.mem_append] at hx
            rcases hx with hx | hx
            · exact h3.2.2 x hx g (List.mem_cons_self g below)
            · exact ((List.pairwise_cons.mp h3.2.1).1 x hx).symm
          refine ⟨?_, ?_, ?_, ?_⟩
          · intro x hx
            have := h1 x (hmemStack x hx)
            omega
          · intro r hr
            rw [List.mem_append] at hr
            rcases hr with hr | hr
            · have := h2 r hr
              omega
            · rw [List.mem_singleton] at hr
              subst hr
              have := h1 g hgmem
              have hsl : (LineRng.mk g.line i).startLine = g.line := rfl
              rw [hsl]
              omega
          · have hsub : List.Sublist rest' (f :: rest) := by
              rw [hdec, hdec']
              exact List.Sublist.append_left (List.sublist_cons_self g below) above
            exact h3.sublist hsub
          · intro x hx r hr
            rw [List.mem_append] at hr
            rcases hr with hr | hr
            · exact h4 x (hmemStack x hx) r hr
            · rw [List.mem_singleton] at hr
              subst hr
              exact hgdistinct x hx

theorem parseScanAux_scanInv :
    ∀ (doc : List RegionTok) (i : Nat) (st : List RFrame × List LineRng),
      ScanInv st i → ScanInv (parseScanAux i st doc) (i + doc.length) := by
  intro doc
  induction doc with
  | nil =>
    intro i st h
    simpa using h
  | cons t rest ih =>
    intro i st h
    unfold parseScanAux
    have h' : ScanInv (parseStep st i t) (i + 1) :=
      @parseStep_scanInv st.1 st.2 _ _ h
    have hres := ih (i + 1) (parseStep st i t) h'
    have harith : i + (t :: rest).length = (i + 1) + rest.length := by
      simp [List.length_cons]
      omega
    rw [harith]
    exact hres

/-- **C6.** An open region marker never closed by the end of the document
contributes zero ranges to the region parser's output (and hence to the
published ExclusionSet, which is exactly this output): no range produced by
`parseRegions` starts at the line of a frame still open at the end of the
scan. Downstream, such regions are left to the brace-delimited function
coloring (the scan simply discards the leftover stack). -/
theorem parseRegions_unclosed_no_range (doc : List RegionTok) :
    ∀ f ∈ (parseScan doc).1, ∀ r ∈ parseRegions doc, r.startLine ≠ f.line := by
  have h0 : ScanInv ([], []) 0 := ⟨by simp, by simp, List.Pairwise.nil, by simp⟩
  have hinv : ScanInv (parseScan doc) (0 + doc.length) :=
    parseScanAux_scanInv doc 0 ([], []) h0
  intro f hf r hr
  have hr2 : r ∈ (parseScan doc).2 := by
    unfold parseRegions outermostOnly at hr
    have h1 := outermostOnly_subset (sortByStart (parseScan doc).2) [] r hr
    simp only [List.not_mem_nil, false_or] at h1
    exact ((List.perm_insertionSort rngLe _).mem_iff).mp h1
  exact Ne.symm (hinv.2.2.2 f hf r hr2)

/-- Witness for C6 at a concrete document: `#region A` (line 0) is never
closed, `#region B` (line 1) is closed at line 2; the frame of `A` (label
normalized to `a`) is still open at the end of the scan, the parser output
is the single range 1–2, and that range does not start at `A`'s line. -/
theorem parseRegions_unclosed_no_range_witness :
    (⟨"a", 0⟩ : RFrame) ∈ (parseScan [RegionTok.openM (some "A"),
        RegionTok.openM (some "B"), RegionTok.closeM (some "B"),
        RegionTok.other]).1 ∧
    (⟨1, 2⟩ : LineRng) ∈ parseRegions [RegionTok.openM (some "A"),
        RegionTok.openM (some "B"), RegionTok.closeM (some "B"),
        RegionTok.other] ∧
    (⟨1, 2⟩ : LineRng).startLine ≠ (⟨"a", 0⟩ : RFrame).line :=
  ⟨by decide, by decide,
   parseRegions_unclosed_no_range [RegionTok.openM (some "A"),
       RegionTok.openM (some "B"), RegionTok.closeM (some "B"),
       RegionTok.other]
     ⟨"a", 0⟩ (by decide) ⟨1, 2⟩ (by decide)⟩

/-- A balanced open/close marker pair of a document: raw label, open-marker
line and close-marker line. -/
structure RegionPair where
  label : String
  openLine : Nat
  closeLine : Nat
deriving DecidableEq, Repr

/-- The document `doc` consists exactly of the balanced marker pairs `ps`
with pairwise-distinct (normalized, non-sentinel) labels: each pair opens
strictly before it closes, its two marker lines carry its open and close
tokens, and every other line carries no marker. -/
structure PairsDoc (doc : List RegionTok) (ps : List RegionPair) : Prop where
  hlab : List.Pairwise
    (fun a b => normLabel (some a.label) ≠ normLabel (some b.label)) ps
  hdef : ∀ pr ∈ ps, normLabel (some pr.label) ≠ "__default__"
  hlt : ∀ pr ∈ ps, pr.openLine < pr.closeLine ∧ pr.closeLine < doc.length
  htok : ∀ pr ∈ ps, doc.getD pr.openLine .other = .openM (some pr.label)
    ∧ doc.getD pr.closeLine .other = .closeM (some pr.label)
  hother : ∀ i < doc.length, (∀ pr ∈ ps, pr.openLine ≠ i ∧ pr.closeLine ≠ i) →
    doc.getD i .other = .other

theorem pairwise_label_inj {ps : List RegionPair}
    (h : List.Pairwise
      (fun a b => normLabel (some a.label) ≠ normLabel (some b.label)) ps) :
    ∀ a ∈ ps, ∀ b ∈ ps,
      normLabel (some a.label) = normLabel (some b.label) → a = b := by
  induction ps with
  | nil =>
    intro a ha
    cases ha
  | cons x rest ih =>
    intro a ha b hb heq
    rw [List.pairwise_cons] at h
    rcases List.mem_cons.mp ha with ha1 | ha1 <;> rcases List.mem_cons.mp hb with hb1 | hb1
    · rw [ha1, hb1]
    · subst ha1
      exact absurd heq (h.1 b hb1)
    · subst hb1
      exact absurd heq.symm (h.1 a ha1)
    · exact ih h.2 a ha1 b hb1 heq

theorem PairsDoc.openLine_inj {doc : List RegionTok} {ps : List RegionPair}
    (hd : PairsDoc doc ps) :
    ∀ a ∈ ps, ∀ b ∈ ps, a.openLine = b.openLine → a = b := by
  intro a ha b hb heq
  have h1 := (hd.htok a ha).1
  have h2 := (hd.htok b hb).1
  rw [heq, h2] at h1
  simp only [RegionTok.openM.injEq, Option.some.injEq] at h1
  exact pairwise_label_inj hd.hlab a ha b hb (by rw [h1])

theorem PairsDoc.closeLine_inj {doc : List RegionTok} {ps : List RegionPair}
    (hd : PairsDoc doc ps) :
    ∀ a ∈ ps, ∀ b ∈ ps, a.closeLine = b.closeLine → a = b := by
  intro a ha b hb heq
  have h1 := (hd.htok a ha).2
  have h2 := (hd.htok b hb).2
  rw [heq, h2] at h1
  simp only [RegionTok.closeM.injEq, Option.some.injEq] at h1
  exact pairwise_label_inj hd.hlab a ha b hb (by rw [h1])

theorem PairsDoc.open_ne_close {doc : List RegionTok} {ps : List RegionPair}
    (hd : PairsDoc doc ps) :
    ∀ a ∈ ps, ∀ b ∈ ps, a.openLine ≠ b.closeLine := by
  intro a ha b hb heq
  have h1 := (hd.htok a ha).1
  have h2 := (hd.htok b hb).2
  rw [heq, h2] at h1
  simp at h1

/-- The stack frame a pair's open marker pushes. -/
def pairFrame (pr : RegionPair) : RFrame := ⟨normLabel (some pr.label), pr.openLine⟩

/-- The range a pair's close marker emits. -/
def pairRng (pr : RegionPair) : LineRng := ⟨pr.openLine, pr.closeLine⟩

/-- The scan state after processing lines `0..i-1` of a balanced-pairs
document: the stack holds exactly the frames of currently open pairs, the
output holds exactly the ranges of already closed pairs (without
duplicates), and open frames have pairwise distinct labels. -/
def PairInv (ps : List RegionPair) (st : List RFrame × List LineRng) (i : Nat) : Prop :=
  (∀ fr, fr ∈ st.1 ↔ ∃ pr ∈ ps, fr = pairFrame pr ∧ pr.openLine < i ∧ i ≤ pr.closeLine)
  ∧ (∀ r, r ∈ st.2 ↔ ∃ pr ∈ ps, r = pairRng pr ∧ pr.closeLine < i)
  ∧ st.2.Nodup
  ∧ st.1.Pairwise (fun a b => a.label ≠ b.label)

theorem parseStep_pairInv {doc : List RegionTok} {ps : List RegionPair}
    (hd : PairsDoc doc ps) {stk : List RFrame} {out : List LineRng} {i : Nat}
    (hi : i < doc.length) (hinv : PairInv ps (stk, out) i) :
    PairInv ps (parseStep (stk, out) i (doc.getD i .other)) (i + 1) := by
  obtain ⟨hstk, hout, hnd, hpw⟩ := hinv
  simp only at hstk hout hnd hpw
  by_cases hopen : ∃ pr ∈ ps, pr.openLine = i
  · obtain ⟨pr, hpr, hprI⟩ := hopen
    have htk : doc.getD i RegionTok.other = RegionTok.openM (some pr.label) := by
      rw [← hprI]
      exact (hd.htok pr hpr).1
    rw [htk]
    show PairInv ps (⟨normLabel (some pr.label), i⟩ :: stk, out) (i + 1)
    have hframe : (⟨normLabel (some pr.label), i⟩ : RFrame) = pairFrame pr := by
      unfold pairFrame
      rw [hprI]
    refine ⟨?_, ?_, hnd, ?_⟩
    · intro fr
      simp only [List.mem_cons]
      constructor
      · rintro (rfl | hfr)
        · exact ⟨pr, hpr, hframe, by omega,
            by have := (hd.hlt pr hpr).1; omega⟩
        · obtain ⟨pr', hpr', hfr', ho, hc⟩ := hstk fr |>.mp hfr
          refine ⟨pr', hpr', hfr', by omega, ?_⟩
          have hne : pr'.closeLine ≠ i := fun hceq =>
            hd.open_ne_close pr hpr pr' hpr' (by omega)
          omega
      · rintro ⟨pr', hpr', hfr', ho, hc⟩
        by_cases hoi : pr'.openLine = i
        · have : pr' = pr := hd.openLine_inj pr' hpr' pr hpr (by omega)
          subst this
          left
          rw [hfr', hframe]
        · right
          exact (hstk fr).mpr ⟨pr', hpr', hfr', by omega, by omega⟩
    · intro r
      rw [hout r]
      constructor
      · rintro ⟨pr', hpr', hr, hc⟩
        exact ⟨pr', hpr', hr, by omega⟩
      · rintro ⟨pr', hpr', hr, hc⟩
        refine ⟨pr', hpr', hr, ?_⟩
        have hne : pr'.closeLine ≠ i := fun hceq =>
          hd.open_ne_close pr hpr pr' hpr' (by omega)
        omega
    · rw [List.pairwise_cons]
      refine ⟨?_, hpw⟩
      intro fr hfr
      obtain ⟨pr', hpr', hfr', ho, hc⟩ := (hstk fr).mp hfr
      intro heq
      have hlbl : normLabel (some pr.label) = normLabel (some pr'.label) := by
        rw [hfr'] at heq
        exact heq
      have : pr = pr' := pairwise_label_inj hd.hlab pr hpr pr' hpr' hlbl
      subst this
      omega
  · by_cases hclose : ∃ pr ∈ ps, pr.closeLine = i
    · obtain ⟨pr, hpr, hprI⟩ := hclose
      have htk : doc.getD i RegionTok.other = RegionTok.closeM (some pr.label) := by
        rw [← hprI]
        exact (hd.htok pr hpr).2
      rw [htk]
      have hlbl := hd.hdef pr hpr
      have hfrmem : pairFrame pr ∈ stk := (hstk _).mpr
        ⟨pr, hpr, rfl, by have := (hd.hlt pr hpr).1; omega, by omega⟩
      cases hstkc : stk with
      | nil =>
        rw [hstkc] at hfrmem
        cases hfrmem
      | cons f rest =>
        subst hstkc
        unfold parseStep
        simp only
        rw [if_neg hlbl]
        cases hrm : removeNearest (normLabel (some pr.label)) (f :: rest) with
        | none =>
          exact absurd rfl
            (removeNearest_none _ _ hrm (pairFrame pr) hfrmem)
        | some pg =>
          obtain ⟨g, rest'⟩ := pg
          obtain ⟨hgl, above, below, hdec, hdec', hab⟩ :=
            removeNearest_spec _ _ _ _ hrm
          have hgmem : g ∈ f :: rest := by
            rw [hdec, List.mem_append]
            exact Or.inr (List.mem_cons_self g below)
          obtain ⟨prg, hprg, hgfr, hgo, hgc⟩ := (hstk g).mp hgmem
          have hprgpr : prg = pr := by
            apply pairwise_label_inj hd.hlab prg hprg pr hpr
            rw [← hgl, hgfr]
            rfl
          subst hprgpr
          rw [hgfr]
          show PairInv ps (rest', out ++ [⟨(pairFrame prg).line, i⟩]) (i + 1)
          have hrng : (⟨(pairFrame prg).line, i⟩ : LineRng) = pairRng prg := by
            unfold pairFrame pairRng
            simp only
            rw [hprI]
          rw [hrng]
          have hmemrest : ∀ x, x ∈ rest' ↔ (x ∈ f :: rest ∧ x ≠ g) := by
            intro x
            constructor
            · intro hx
              rw [hdec', List.mem_append] at hx
              constructor
              · rw [hdec, List.mem_append]
                rcases hx with hx | hx
                · exact Or.inl hx
                · exact Or.inr (List.mem_cons_of_mem g hx)
              · rcases hx with hx | hx
                · intro heq
                  exact hab x hx (by rw [heq]; exact hgl)
                · intro heq
                  have hpwd := hpw
                  rw [hdec, List.pairwise_append] at hpwd
                  have hgx := (List.pairwise_cons.mp hpwd.2.1).1 x hx
                  rw [heq] at hgx
                  exact hgx rfl
            · rintro ⟨hx, hne⟩
              rw [hdec, List.mem_append] at hx
              rw [hdec', List.mem_append]
              rcases hx with hx | hx
              · exact Or.inl hx
              · rcases List.mem_cons.mp hx with rfl | hx
                · exact absurd rfl hne
                · exact Or.inr hx
          refine ⟨?_, ?_, ?_, ?_⟩
          · intro fr
            rw [hmemrest fr]
            constructor
            · rintro ⟨hfr, hne⟩
              obtain ⟨pr', hpr', hfr', ho, hc⟩ := (hstk fr).mp hfr
              refine ⟨pr', hpr', hfr', by omega, ?_⟩
              have : pr'.closeLine ≠ i := by
                intro hceq
                have : pr' = prg := hd.closeLine_inj pr' hpr' prg hpr (by omega)
                subst this
                exact hne (by rw [hfr', hgfr])
              omega
            · rintro ⟨pr', hpr', hfr', ho, hc⟩
              have hone : pr'.openLine ≠ i := fun heq => hopen ⟨pr', hpr', heq⟩
              constructor
              · exact (hstk fr).mpr ⟨pr', hpr', hfr', by omega, by omega⟩
              · intro heq
                have : pr' = prg := by
                  apply pairwise_label_inj hd.hlab pr' hpr' prg hpr
                  have h1 : fr.label = normLabel (some pr'.label) := by
                    rw [hfr']
                    rfl
                  have h2 : fr.label = normLabel (some prg.label) := by
                    rw [heq, hgfr]
                    rfl
                  rw [← h1, ← h2]
                subst this
                omega
          · intro r
            rw [List.mem_append, List.mem_singleton, hout r]
            constructor
            · rintro (⟨pr', hpr', hr, hc⟩ | rfl)
              · exact ⟨pr', hpr', hr, by omega⟩
              · exact ⟨prg, hpr, rfl, by omega⟩
            · rintro ⟨pr', hpr', hr, hc⟩
              by_cases hceq : pr'.closeLine = i
              · right
                have : pr' = prg := hd.closeLine_inj pr' hpr' prg hpr (by omega)
                subst this
                exact hr
              · exact Or.inl ⟨pr', hpr', hr, by omega⟩
          · rw [List.nodup_append]
            refine ⟨hnd, List.nodup_singleton _, ?_⟩
            intro r hr
            obtain ⟨pr', hpr', hr', hc⟩ := (hout r).mp hr
            rw [List.mem_singleton]
            intro heq
            have : r.endLine = pr'.closeLine := by
              rw [hr']
              rfl
            have : r.endLine = prg.closeLine := by
              rw [heq]
              rfl
            omega
          · apply hpw.sublist
            rw [hdec, hdec']
            exact List.Sublist.append_left (List.sublist_cons_self g below) above
    · have htk : doc.getD i RegionTok.other = RegionTok.other := by
        apply hd.hother i hi
        intro pr hpr
        exact ⟨fun heq => hopen ⟨pr, hpr, heq⟩, fun heq => hclose ⟨pr, hpr, heq⟩⟩
      rw [htk]
      show PairInv ps (stk, out) (i + 1)
      refine ⟨?_, ?_, hnd, hpw⟩
      · intro fr
        rw [hstk fr]
        constructor
        · rintro ⟨pr', hpr', hfr', ho, hc⟩
          have : pr'.closeLine ≠ i := fun heq => hclose ⟨pr', hpr', heq⟩
          exact ⟨pr', hpr', hfr', by omega, by omega⟩
        · rintro ⟨pr', hpr', hfr', ho, hc⟩
          have : pr'.openLine ≠ i := fun heq => hopen ⟨pr', hpr', heq⟩
          exact ⟨pr', hpr', hfr', by omega, by omega⟩
      · intro r
        rw [hout r]
        constructor
        · rintro ⟨pr', hpr', hr, hc⟩
          exact ⟨pr', hpr', hr, by omega⟩
        · rintro ⟨pr', hpr', hr, hc⟩
          have : pr'.closeLine ≠ i := fun heq => hclose ⟨pr', hpr', heq⟩
          exact ⟨pr', hpr', hr, by omega⟩

theorem parseScanAux_pairInv {doc : List RegionTok} {ps : List RegionPair}
    (hd : PairsDoc doc ps) :
    ∀ (rem : List RegionTok) (k : Nat) (st : List RFrame × List LineRng),
      rem = doc.drop k → k ≤ doc.length → PairInv ps st k →
      PairInv ps (parseScanAux k st rem) doc.length := by
  intro rem
  induction rem with
  | nil =>
    intro k st heq hk hinv
    have hlen : doc.length ≤ k := by
      by_contra hcon
      push_neg at hcon
      have := List.drop_eq_nil_iff.mp heq.symm
      omega
    have : k = doc.length := by omega
    subst this
    exact hinv
  | cons t rest ih =>
    intro k st heq hk hinv
    have hklt : k < doc.length := by
      by_contra hcon
      push_neg at hcon
      rw [List.drop_eq_nil_of_le hcon] at heq
      cases heq
    have hgetk : doc.getD k RegionTok.other = t := by
      rw [List.getD_eq_getElem?_getD]
      have h1 : doc[k]? = (doc.drop k)[0]? := by
        rw [List.getElem?_drop]
        norm_num
      rw [h1, ← heq]
      simp
    have hrest : rest = doc.drop (k + 1) := by
      have h1 : (doc.drop k).drop 1 = doc.drop (k + 1) := List.drop_drop 1 k doc
      rw [← heq] at h1
      simpa using h1
    unfold parseScanAux
    have hstep : PairInv ps (parseStep st k t) (k + 1) := by
      rw [← hgetk]
      exact @parseStep_pairInv _ _ hd st.1 st.2 _ hklt hinv
    exact ih (k + 1) (parseStep st k t) hrest (by omega) hstep

theorem parseScan_pairs {doc : List RegionTok} {ps : List RegionPair}
    (hd : PairsDoc doc ps) :
    (∀ r, r ∈ (parseScan doc).2 ↔ ∃ pr ∈ ps, r = pairRng pr)
    ∧ (parseScan doc).2.Nodup := by
  have h0 : PairInv ps ([], []) 0 := by
    refine ⟨?_, ?_, List.nodup_nil, List.Pairwise.nil⟩
    · intro fr
      constructor
      · intro h
        cases h
      · rintro ⟨pr, _, _, ho, _⟩
        omega
    · intro r
      constructor
      · intro h
        cases h
      · rintro ⟨pr, _, _, hc⟩
        omega
  have hfin := parseScanAux_pairInv hd doc 0 ([], []) (by simp) (by omega) h0
  constructor
  · intro r
    have hiff := hfin.2.1 r
    rw [show parseScan doc = parseScanAux 0 ([], []) doc from rfl]
    rw [hiff]
    constructor
    · rintro ⟨pr, hpr, hr, _⟩
      exact ⟨pr, hpr, hr⟩
    · rintro ⟨pr, hpr, hr⟩
      exact ⟨pr, hpr, hr, (hd.hlt pr hpr).2⟩
  · exact hfin.2.2.1

/-- `y` dominates `x`: `x`'s line span is fully covered by `y`'s. -/
def domRng (y x : LineRng) : Prop :=
  y.startLine ≤ x.startLine ∧ x.endLine ≤ y.endLine

instance (y x : LineRng) : Decidable (domRng y x) := by
  unfold domRng
  infer_instance

theorem outermost_fold_spec :
    ∀ (suffix processed acc : List LineRng),
      (∀ y ∈ processed, ∀ r ∈ suffix, rngLe y r ∧ y.startLine ≠ r.startLine) →
      List.Pairwise rngLe suffix →
      List.Pairwise (fun a b => a.startLine ≠ b.startLine) suffix →
      (∀ x, x ∈ acc ↔ x ∈ processed ∧ ¬∃ y ∈ processed, y ≠ x ∧ domRng y x) →
      (∀ m, acc.getLast? = some m → m ∈ processed ∧
        ∀ y ∈ processed, y.endLine ≤ m.endLine) →
      (acc = [] → processed = []) →
      acc.Nodup →
      (∀ x, x ∈ suffix.foldl outermostStep acc ↔ x ∈ processed ++ suffix ∧
          ¬∃ y ∈ processed ++ suffix, y ≠ x ∧ domRng y x)
        ∧ (suffix.foldl outermostStep acc).Nodup := by
  intro suffix
  induction suffix with
  | nil =>
    intro processed acc _ _ _ hA _ _ hD
    rw [List.append_nil]
    exact ⟨hA, hD⟩
  | cons r rest ih =>
    intro processed acc hH1 hsort hdist hA hB hC hD
    have hlt : ∀ y ∈ processed, y.startLine < r.startLine := by
      intro y hy
      have h := hH1 y hy r (List.mem_cons_self r rest)
      unfold rngLe at h
      omega
    have hrnotp : r ∉ processed := fun h => by have := hlt r h; omega
    have haccsub : ∀ x ∈ acc, x ∈ processed := fun x hx => ((hA x).mp hx).1
    have hrnota : r ∉ acc := fun h => hrnotp (haccsub r h)
    have hH1' : ∀ y ∈ processed ++ [r], ∀ q ∈ rest,
        rngLe y q ∧ y.startLine ≠ q.startLine := by
      intro y hy q hq
      rw [List.mem_append, List.mem_singleton] at hy
      rcases hy with hy | rfl
      · exact hH1 y hy q (List.mem_cons_of_mem r hq)
      · exact ⟨(List.pairwise_cons.mp hsort).1 q hq,
          (List.pairwise_cons.mp hdist).1 q hq⟩
    have hsort' := (List.pairwise_cons.mp hsort).2
    have hdist' := (List.pairwise_cons.mp hdist).2
    have hgoal : ∀ acc', acc' = outermostStep acc r →
        (∀ x, x ∈ acc' ↔ x ∈ processed ++ [r] ∧
          ¬∃ y ∈ processed ++ [r], y ≠ x ∧ domRng y x) →
        (∀ m, acc'.getLast? = some m → m ∈ processed ++ [r] ∧
          ∀ y ∈ processed ++ [r], y.endLine ≤ m.endLine) →
        (acc' = [] → processed ++ [r] = []) →
        acc'.Nodup →
        (∀ x, x ∈ (r :: rest).foldl outermostStep acc ↔
            x ∈ processed ++ r :: rest ∧
            ¬∃ y ∈ processed ++ r :: rest, y ≠ x ∧ domRng y x)
          ∧ ((r :: rest).foldl outermostStep acc).Nodup := by
      intro acc' heq hA' hB' hC' hD'
      rw [List.foldl_cons, ← heq]
      have hmain := ih (processed ++ [r]) acc' hH1' hsort' hdist' hA' hB' hC' hD'
      have hassoc : processed ++ [r] ++ rest = processed ++ r :: rest := by
        rw [List.append_assoc]
        rfl
      rw [hassoc] at hmain
      exact hmain
    cases hlast : acc.getLast? with
    | none =>
      have haccnil : acc = [] := List.getLast?_eq_none_iff.mp hlast
      have hpnil : processed = [] := hC haccnil
      subst haccnil
      subst hpnil
      have hstep : outermostStep [] r = [r] := by
        unfold outermostStep
        rfl
      apply hgoal [r] hstep.symm
      · intro x
        simp only [List.nil_append, List.mem_singleton]
        constructor
        · intro hx
          refine ⟨hx, ?_⟩
          rintro ⟨y, hy, hne, _⟩
          exact hne (hy.trans hx.symm)
        · rintro ⟨hx, _⟩
          exact hx
      · intro m hm
        simp only [List.getLast?_singleton, Option.some.injEq] at hm
        subst hm
        exact ⟨by simp, by simp⟩
      · intro h
        cases h
      · exact List.nodup_singleton r
    | some m =>
      obtain ⟨hmp, hmax⟩ := hB m hlast
      have hmlt : m.startLine < r.startLine := hlt m hmp
      have hmner : m ≠ r := fun h => by rw [h] at hmlt; omega
      by_cases hcont : m.startLine ≤ r.startLine ∧ r.endLine ≤ m.endLine
      · have hstep : outermostStep acc r = acc := by
          unfold outermostStep
          rw [hlast]
          dsimp only
          rw [if_pos hcont]
        apply hgoal acc hstep.symm
        · intro x
          constructor
          · intro hx
            obtain ⟨hxp, hnd⟩ := (hA x).mp hx
            refine ⟨List.mem_append_left _ hxp, ?_⟩
            rintro ⟨y, hy, hne, hdom⟩
            rw [List.mem_append, List.mem_singleton] at hy
            rcases hy with hy | rfl
            · exact hnd ⟨y, hy, hne, hdom⟩
            · have := hlt x hxp
              unfold domRng at hdom
              omega
          · rintro ⟨hx, hnd⟩
            rw [List.mem_append, List.mem_singleton] at hx
            rcases hx with hx | rfl
            · refine (hA x).mpr ⟨hx, ?_⟩
              rintro ⟨y, hy, hne, hdom⟩
              exact hnd ⟨y, List.mem_append_left _ hy, hne, hdom⟩
            · exfalso
              apply hnd
              exact ⟨m, List.mem_append_left _ hmp, hmner, hcont.1, hcont.2⟩
        · intro m' hm'
          rw [hlast] at hm'
          cases hm'
          refine ⟨List.mem_append_left _ hmp, ?_⟩
          intro y hy
          rw [List.mem_append, List.mem_singleton] at hy
          rcases hy with hy | rfl
          · exact hmax y hy
          · exact hcont.2
        · intro h
          rw [h] at hlast
          cases hlast
        · exact hD
      · have hrend : m.endLine < r.endLine := by
          rcases Nat.lt_or_ge m.endLine r.endLine with h | h
          · exact h
          · exact absurd ⟨by omega, by omega⟩ hcont
        have hstep : outermostStep acc r = acc ++ [r] := by
          unfold outermostStep
          rw [hlast]
          dsimp only
          rw [if_neg hcont]
          by_cases hov : r.startLine ≤ m.endLine ∧ m.startLine ≤ r.endLine
          · rw [if_pos hov, if_pos hrend]
          · rw [if_neg hov]
        apply hgoal (acc ++ [r]) hstep.symm
        · intro x
          rw [List.mem_append, List.mem_singleton]
          constructor
          · rintro (hx | rfl)
            · obtain ⟨hxp, hnd⟩ := (hA x).mp hx
              refine ⟨List.mem_append_left _ hxp, ?_⟩
              rintro ⟨y, hy, hne, hdom⟩
              rw [List.mem_append, List.mem_singleton] at hy
              rcases hy with hy | rfl
              · exact hnd ⟨y, hy, hne, hdom⟩
              · have := hlt x hxp
                unfold domRng at hdom
                omega
            · refine ⟨List.mem_append_right _ (List.mem_singleton_self _), ?_⟩
              rintro ⟨y, hy, hne, hdom⟩
              rw [List.mem_append, List.mem_singleton] at hy
              rcases hy with hy | rfl
              · have h1 := hmax y hy
                unfold domRng at hdom
                omega
              · exact hne rfl
          · rintro ⟨hx, hnd⟩
            rw [List.mem_append, List.mem_singleton] at hx
            rcases hx with hx | rfl
            · left
              refine (hA x).mpr ⟨hx, ?_⟩
              rintro ⟨y, hy, hne, hdom⟩
              exact hnd ⟨y, List.mem_append_left _ hy, hne, hdom⟩
            · right
              rfl
        · intro m' hm'
          rw [List.getLast?_concat] at hm'
          cases hm'
          refine ⟨List.mem_append_right _ (List.mem_singleton_self _), ?_⟩
          intro y hy
          rw [List.mem_append, List.mem_singleton] at hy
          rcases hy with hy | rfl
          · have := hmax y hy
            omega
          · omega
        · intro h
          rcases List.append_eq_nil.mp h with ⟨_, h2⟩
          cases h2
        · rw [List.nodup_append]
          exact ⟨hD, List.nodup_singleton r, by
            intro x hx
            rw [List.mem_singleton]
            intro heq
            subst heq
            exact hrnota hx⟩

/-- **C7 (amended).** For every document whose region markers form balanced,
uniquely-labeled (non-sentinel) open/close pairs: the scan stage produces
exactly one range per pair, spanning the open-marker line to the
close-marker line inclusive; the parser output `parseRegions` consists
exactly of those pair ranges that are not covered by another pair's range —
fully nested pairs are dropped by the `outermostOnly` filter (see
`parseRegions_nested_pairs_cex`) — and contains no duplicates. -/
theorem parseRegions_balanced_pairs (doc : List RegionTok) (ps : List RegionPair)
    (hd : PairsDoc doc ps) :
    (∀ r, r ∈ (parseScan doc).2 ↔ ∃ pr ∈ ps, r = pairRng pr)
    ∧ (parseScan doc).2.Nodup
    ∧ (∀ r, r ∈ parseRegions doc ↔
        ((∃ pr ∈ ps, r = pairRng pr)
          ∧ ¬∃ r2, (∃ pr2 ∈ ps, r2 = pairRng pr2) ∧ r2 ≠ r ∧ domRng r2 r))
    ∧ (parseRegions doc).Nodup := by
  obtain ⟨hmem, hnd⟩ := parseScan_pairs hd
  have hstartinj : ∀ x ∈ (parseScan doc).2, ∀ y ∈ (parseScan doc).2,
      x.startLine = y.startLine → x = y := by
    intro x hx y hy heq
    obtain ⟨p1, hp1, rfl⟩ := (hmem x).mp hx
    obtain ⟨p2, hp2, rfl⟩ := (hmem y).mp hy
    have : p1 = p2 := hd.openLine_inj p1 hp1 p2 hp2 heq
    rw [this]
  have hdistinct : List.Pairwise (fun a b => a.startLine ≠ b.startLine)
      (parseScan doc).2 := by
    apply List.Pairwise.imp_of_mem ?_ hnd
    intro a b ha hb hne heq
    exact hne (hstartinj a ha b hb heq)
  have hperm : List.Perm (sortByStart (parseScan doc).2) (parseScan doc).2 :=
    List.perm_insertionSort rngLe _
  have hsorted : List.Pairwise rngLe (sortByStart (parseScan doc).2) :=
    List.sorted_insertionSort rngLe _
  have hdistinct2 : List.Pairwise (fun a b => a.startLine ≠ b.startLine)
      (sortByStart (parseScan doc).2) :=
    (hperm.pairwise_iff (fun h => Ne.symm h)).mpr hdistinct
  have hchar := outermost_fold_spec (sortByStart (parseScan doc).2) [] []
    (by intro y hy; cases hy) hsorted hdistinct2
    (by intro x; simp)
    (by intro m hm; cases hm)
    (fun _ => rfl) List.nodup_nil
  have hpr : parseRegions doc
      = (sortByStart (parseScan doc).2).foldl outermostStep [] := rfl
  refine ⟨hmem, hnd, ?_, ?_⟩
  · intro r
    rw [hpr, hchar.1 r]
    rw [List.nil_append]
    constructor
    · rintro ⟨hrm, hnod⟩
      refine ⟨(hmem r).mp (hperm.mem_iff.mp hrm), ?_⟩
      rintro ⟨r2, hr2, hne, hdom⟩
      exact hnod ⟨r2, hperm.mem_iff.mpr ((hmem r2).mpr hr2), hne, hdom⟩
    · rintro ⟨hrm, hnod⟩
      refine ⟨hperm.mem_iff.mpr ((hmem r).mpr hrm), ?_⟩
      rintro ⟨y, hy, hne, hdom⟩
      exact hnod ⟨y, (hmem y).mp (hperm.mem_iff.mp hy), hne, hdom⟩
  · rw [hpr]
    exact hchar.2

/-- Witness for C7 (amended) at a concrete document: pairs `A` = lines 0–2
and `B` = lines 1–3 (overlapping but not nested); the scan yields one range
per pair and the parser keeps both. -/
theorem parseRegions_balanced_pairs_witness :
    (∀ r, r ∈ (parseScan [RegionTok.openM (some "A"), RegionTok.openM (some "B"),
          RegionTok.closeM (some "A"), RegionTok.closeM (some "B")]).2 ↔
        ∃ pr ∈ [RegionPair.mk "A" 0 2, RegionPair.mk "B" 1 3], r = pairRng pr)
    ∧ (parseScan [RegionTok.openM (some "A"), RegionTok.openM (some "B"),
        RegionTok.closeM (some "A"), RegionTok.closeM (some "B")]).2.Nodup
    ∧ (∀ r, r ∈ parseRegions [RegionTok.openM (some "A"), RegionTok.openM (some "B"),
          RegionTok.closeM (some "A"), RegionTok.closeM (some "B")] ↔
        ((∃ pr ∈ [RegionPair.mk "A" 0 2, RegionPair.mk "B" 1 3], r = pairRng pr)
          ∧ ¬∃ r2, (∃ pr2 ∈ [RegionPair.mk "A" 0 2, RegionPair.mk "B" 1 3],
              r2 = pairRng pr2) ∧ r2 ≠ r ∧ domRng r2 r))
    ∧ (parseRegions [RegionTok.openM (some "A"), RegionTok.openM (some "B"),
        RegionTok.closeM (some "A"), RegionTok.closeM (some "B")]).Nodup :=
  parseRegions_balanced_pairs _ _
    { hlab := by decide
      hdef := by decide
      hlt := by decide
      htok := by decide
      hother := by decide }

/-!
## Indentation width (`computeBaseIndent` / `computeColoringWidth`,
`src/src/extension.ts` lines 124–162)

A document is its list of lines. `firstNonWhitespaceCharacterIndex` (`fnw`)
is the leading-whitespace width (the line's length when it is all
whitespace), with whitespace = space or tab. A block is given by its line
range and its children's line intervals (the `childIntervals` extraction).
`Number.MAX_SAFE_INTEGER`, the initial value of `base`, is kept literally.
-/

/-- Whitespace for the leading-indentation scan (space or tab, as counted by
the editor's `firstNonWhitespaceCharacterIndex`). -/
def wsCh (c : Char) : Bool := c == ' ' || c == '\t'

/-- `firstNonWhitespaceCharacterIndex` of a line. -/
def fnw (s : String) : Nat := (s.data.takeWhile wsCh).length

/-- The line is blank: `text.trim() === ''`. -/
def isBlank (s : String) : Bool := s.data.all wsCh

/-- `Number.MAX_SAFE_INTEGER`. -/
def MAX_SAFE : Nat := 2 ^ 53 - 1

/-- The `while (i < childIntervals.length && childIntervals[i][1] < line) i++`
pointer advance, rendered by dropping consumed intervals. -/
def dropDone (line : Nat) : List (Nat × Nat) → List (Nat × Nat)
  | [] => []
  | c :: rest => if c.2 < line then dropDone line rest else c :: rest

/-- The scanning loop of `computeBaseIndent`: skip lines owned by a child
interval, stop past the block or the document end, skip blank lines, fold
the minimum positive indentation into `base`, and exit early once `base`
reaches 1. -/
def baseLoop (doc : List String) (stop : Nat) (line : Nat)
    (cs : List (Nat × Nat)) (base : Nat) : Nat :=
  if h1 : stop < line then base
  else
    match hcs : dropDone line cs with
    | c :: rest =>
      if h2 : c.1 ≤ line ∧ line ≤ c.2 then
        baseLoop doc stop (c.2 + 1) (c :: rest) base
      else
        if doc.length ≤ line then base
        else
          let s := doc.getD line ""
          if isBlank s then baseLoop doc stop (line + 1) (c :: rest) base
          else
            let ind := fnw s
            let base' := if 0 < ind ∧ ind < base then ind else base
            if base' = 1 then base'
            else baseLoop doc stop (line + 1) (c :: rest) base'
    | [] =>
      if doc.length ≤ line then base
      else
        let s := doc.getD line ""
        if isBlank s then baseLoop doc stop (line + 1) [] base
        else
          let ind := fnw s
          let base' := if 0 < ind ∧ ind < base then ind else base
          if base' = 1 then base'
          else baseLoop doc stop (line + 1) [] base'
termination_by stop + 1 - line
decreasing_by
  · omega
  · omega
  · omega
  · omega
  · omega

/-- The comparator of `childIntervals.sort((a,b) => a[0] - b[0])`. -/
def childLe (a b : Nat × Nat) : Prop := a.1 ≤ b.1

instance : DecidableRel childLe := by
  unfold childLe
  infer_instance

instance : IsTotal (Nat × Nat) childLe := by
  constructor
  intro a b
  unfold childLe
  omega

instance : IsTrans (Nat × Nat) childLe := by
  constructor
  intro a b c
  unfold childLe
  omega

/-- `computeBaseIndent` of `src/src/extension.ts` lines 124–151, for a block
spanning lines `start`–`stop` whose children own the given line intervals. -/
def computeBaseIndent (doc : List String) (start stop : Nat)
    (children : List (Nat × Nat)) : Nat :=
  let childIntervals := List.insertionSort childLe children
  let base := baseLoop doc stop start childIntervals MAX_SAFE
  if base = MAX_SAFE then 0 else max 1 base

/-- JavaScript `x || d` on numbers (`d` when `x` is 0). -/
def jsOr (x d : Nat) : Nat := if x = 0 then d else x

/-- `computeColoringWidth` of `src/src/extension.ts` lines 154–162. -/
def computeColoringWidth (doc : List String) (start stop : Nat)
    (children : List (Nat × Nat)) : Nat :=
  let base := computeBaseIndent doc start stop children
  if 0 < base then base
  else if start < doc.length then max 1 (jsOr (fnw (doc.getD start "")) 1)
  else 1

/-- The indentation widths of the block's qualifying lines from `line` to
`stop`: lines of the document not owned by any child interval, not blank,
and with positive indentation (the code ignores zero-indented lines). -/
def qualLines (doc : List String) (stop : Nat) (children : List (Nat × Nat))
    (line : Nat) : List Nat :=
  ((List.range' line (stop + 1 - line)).filter (fun l =>
    decide (l < doc.length) &&
    decide (∀ c ∈ children, ¬(c.1 ≤ l ∧ l ≤ c.2)) &&
    !(isBlank (doc.getD l "")) &&
    decide (0 < fnw (doc.getD l "")))).map (fun l => fnw (doc.getD l ""))

/-- The amended claim, in the spec's style: the coloring width is the
minimum indentation over the block's own non-blank, positively-indented
lines (punctuation-only lines included); when no such line exists it falls
back to the first line's indentation, floored at one column. -/
def amendedWidth (doc : List String) (start stop : Nat)
    (children : List (Nat × Nat)) : Nat :=
  match (qualLines doc stop children start).min? with
  | some m => m
  | none =>
    if start < doc.length then max 1 (jsOr (fnw (doc.getD start "")) 1)
    else 1

theorem foldl_min_min? (l : List Nat) : ∀ b : Nat,
    l.foldl min b = match l.min? with | none => b | some m => min b m := by
  induction l with
  | nil =>
    intro b
    rfl
  | cons a rest ih =>
    intro b
    rw [List.foldl_cons, ih (min b a)]
    have h1 : (a :: rest).min? = some (rest.foldl min a) := rfl
    rw [h1]
    cases hm : rest.min? with
    | none =>
      have : rest = [] := by
        cases rest with
        | nil => rfl
        | cons x xs => simp [List.min?] at hm
      subst this
      rfl
    | some m =>
      have h2 : rest.foldl min a = min a m := by
        have := ih a
        rw [hm] at this
        exact this
      dsimp only
      rw [h2]
      omega

theorem dropDone_subset {line : Nat} : ∀ cs : List (Nat × Nat),
    ∀ c ∈ dropDone line cs, c ∈ cs := by
  intro cs
  induction cs with
  | nil =>
    intro c hc
    cases hc
  | cons x rest ih =>
    intro c hc
    unfold dropDone at hc
    split at hc
    · exact List.mem_cons_of_mem x (ih c hc)
    · exact hc

theorem dropDone_keep {line : Nat} : ∀ (cs : List (Nat × Nat)) (c : Nat × Nat),
    c ∈ cs → line ≤ c.2 → c ∈ dropDone line cs := by
  intro cs
  induction cs with
  | nil =>
    intro c hc
    cases hc
  | cons x rest ih =>
    intro c hc hle
    unfold dropDone
    split
    · rename_i hx
      rcases List.mem_cons.mp hc with rfl | hc
      · omega
      · exact ih c hc hle
    · exact hc

theorem dropDone_head {line : Nat} : ∀ (cs : List (Nat × Nat)) (c : Nat × Nat)
    (rest : List (Nat × Nat)), dropDone line cs = c :: rest → line ≤ c.2 := by
  intro cs
  induction cs with
  | nil =>
    intro c rest h
    cases h
  | cons x xs ih =>
    intro c rest h
    unfold dropDone at h
    split at h
    · exact ih c rest h
    · rename_i hx
      cases h
      omega

theorem dropDone_sublist {line : Nat} : ∀ cs : List (Nat × Nat),
    List.Sublist (dropDone line cs) cs := by
  intro cs
  induction cs with
  | nil => exact List.Sublist.refl []
  | cons x rest ih =>
    unfold dropDone
    split
    · exact ih.cons x
    · exact List.Sublist.refl _

theorem qualLines_stop {doc : List String} {stop : Nat}
    {children : List (Nat × Nat)} {line : Nat} (h : stop < line) :
    qualLines doc stop children line = [] := by
  unfold qualLines
  have : stop + 1 - line = 0 := by omega
  rw [this]
  rfl

theorem qualLines_step {doc : List String} {stop : Nat}
    {children : List (Nat × Nat)} {line : Nat} (h : line ≤ stop) :
    qualLines doc stop children line =
      ((List.filter (fun l =>
          decide (l < doc.length) &&
          decide (∀ c ∈ children, ¬(c.1 ≤ l ∧ l ≤ c.2)) &&
          !(isBlank (doc.getD l "")) &&
          decide (0 < fnw (doc.getD l ""))) [line]).map
            (fun l => fnw (doc.getD l "")))
        ++ qualLines doc stop children (line + 1) := by
  unfold qualLines
  have h1 : stop + 1 - line = (stop - line) + 1 := by omega
  have h2 : stop + 1 - (line + 1) = stop - line := by omega
  rw [h1, h2, List.range'_succ]
  rw [show line :: List.range' (line + 1) (stop - line) =
    [line] ++ List.range' (line + 1) (stop - line) from rfl]
  rw [List.filter_append, List.map_append]

theorem qualLines_skip_covered {doc : List String} {stop : Nat}
    {children : List (Nat × Nat)} {c : Nat × Nat} (hc : c ∈ children) :
    ∀ (n line : Nat), c.2 + 1 - line ≤ n → c.1 ≤ line → line ≤ c.2 + 1 →
      qualLines doc stop children line = qualLines doc stop children (c.2 + 1) := by
  intro n
  induction n with
  | zero =>
    intro line hn hc1 hline
    have : line = c.2 + 1 := by omega
    rw [this]
  | succ k ih =>
    intro line hn hc1 hline
    rcases Nat.lt_or_ge c.2 line with h | h
    · have : line = c.2 + 1 := by omega
      rw [this]
    · rcases Nat.lt_or_ge stop line with hst | hst
      · rw [qualLines_stop hst, qualLines_stop (by omega)]
      · rw [qualLines_step hst]
        have hB : decide (∀ c' ∈ children, ¬(c'.1 ≤ line ∧ line ≤ c'.2)) = false := by
          rw [decide_eq_false_iff_not]
          intro hall
          exact hall c hc ⟨hc1, by omega⟩
        have hcov : (List.filter (fun l =>
            decide (l < doc.length) &&
            decide (∀ c ∈ children, ¬(c.1 ≤ l ∧ l ≤ c.2)) &&
            !(isBlank (doc.getD l "")) &&
            decide (0 < fnw (doc.getD l ""))) [line]) = [] := by
          simp [List.filter_cons, hB]
        rw [hcov]
        simp only [List.map_nil, List.nil_append]
        exact ih (line + 1) (by omega) (by omega) (by omega)

theorem qualLines_skip {doc : List String} {stop line : Nat}
    {children : List (Nat × Nat)} (h : line ≤ stop)
    (hp : (decide (line < doc.length) &&
           decide (∀ c ∈ children, ¬(c.1 ≤ line ∧ line ≤ c.2)) &&
           !(isBlank (doc.getD line "")) &&
           decide (0 < fnw (doc.getD line ""))) = false) :
    qualLines doc stop children line = qualLines doc stop children (line + 1) := by
  rw [qualLines_step h]
  have hf : (List.filter (fun l =>
      decide (l < doc.length) &&
      decide (∀ c ∈ children, ¬(c.1 ≤ l ∧ l ≤ c.2)) &&
      !(isBlank (doc.getD l "")) &&
      decide (0 < fnw (doc.getD l ""))) [line]) = [] := by
    rw [List.filter_cons, hp]
    simp
  rw [hf]
  simp only [List.map_nil, List.nil_append]

theorem qualLines_cons {doc : List String} {stop line : Nat}
    {children : List (Nat × Nat)} (h : line ≤ stop)
    (hp : (decide (line < doc.length) &&
           decide (∀ c ∈ children, ¬(c.1 ≤ line ∧ line ≤ c.2)) &&
           !(isBlank (doc.getD line "")) &&
           decide (0 < fnw (doc.getD line ""))) = true) :
    qualLines doc stop children line =
      fnw (doc.getD line "") :: qualLines doc stop children (line + 1) := by
  rw [qualLines_step h]
  have hf : (List.filter (fun l =>
      decide (l < doc.length) &&
      decide (∀ c ∈ children, ¬(c.1 ≤ l ∧ l ≤ c.2)) &&
      !(isBlank (doc.getD l "")) &&
      decide (0 < fnw (doc.getD l ""))) [line]) = [line] := by
    rw [List.filter_cons, hp]
    simp
  rw [hf]
  simp only [List.map_cons, List.map_nil, List.cons_append, List.nil_append]

theorem qualLines_doc_end {doc : List String} {stop line : Nat}
    {children : List (Nat × Nat)} (h : doc.length ≤ line) :
    qualLines doc stop children line = [] := by
  unfold qualLines
  have hf : (List.range' line (stop + 1 - line)).filter (fun l =>
      decide (l < doc.length) &&
      decide (∀ c ∈ children, ¬(c.1 ≤ l ∧ l ≤ c.2)) &&
      !(isBlank (doc.getD l "")) &&
      decide (0 < fnw (doc.getD l ""))) = [] := by
    rw [List.filter_eq_nil_iff]
    intro l hl
    have hml := List.mem_range'_1.mp hl
    have h1 : decide (l < doc.length) = false := by
      rw [decide_eq_false_iff_not]
      omega
    simp [h1]
  rw [hf]
  rfl

theorem foldl_min_one {l : List Nat} (h : ∀ m ∈ l, 1 ≤ m) :
    l.foldl min 1 = 1 := by
  induction l with
  | nil => rfl
  | cons a rest ih =>
    rw [List.foldl_cons]
    have ha : min 1 a = 1 := by
      have := h a (List.mem_cons_self a rest)
      omega
    rw [ha]
    exact ih (fun m hm => h m (List.mem_cons_of_mem a hm))

theorem qualLines_pos {doc : List String} {stop line : Nat}
    {children : List (Nat × Nat)} :
    ∀ m ∈ qualLines doc stop children line, 1 ≤ m := by
  intro m hm
  unfold qualLines at hm
  rcases List.mem_map.mp hm with ⟨l, hl, rfl⟩
  have hpred := List.of_mem_filter hl
  rw [Bool.and_eq_true, Bool.and_eq_true, Bool.and_eq_true] at hpred
  have h4 := of_decide_eq_true hpred.2
  omega

theorem qualLines_lt_max {doc : List String} {stop line : Nat}
    {children : List (Nat × Nat)} (hfnw : ∀ s ∈ doc, fnw s < MAX_SAFE) :
    ∀ m ∈ qualLines doc stop children line, m < MAX_SAFE := by
  intro m hm
  unfold qualLines at hm
  rcases List.mem_map.mp hm with ⟨l, hl, rfl⟩
  have hpred := List.of_mem_filter hl
  rw [Bool.and_eq_true, Bool.and_eq_true, Bool.and_eq_true] at hpred
  have hlen := of_decide_eq_true hpred.1.1.1
  rw [List.getD_eq_getElem doc "" hlen]
  exact hfnw _ (List.getElem_mem hlen)

theorem baseLoop_fold {doc : List String} {stop : Nat} {children : List (Nat × Nat)} :
    ∀ (n line : Nat) (cs : List (Nat × Nat)) (base : Nat),
      stop + 1 - line ≤ n →
      List.Pairwise childLe cs →
      (∀ c' ∈ children, c' ∉ cs → c'.2 < line) →
      (∀ c' ∈ cs, c' ∈ children) →
      baseLoop doc stop line cs base =
        (qualLines doc stop children line).foldl min base := by
  intro n
  induction n with
  | zero =>
    intro line cs base hn hsort hdrop hsub
    have hst : stop < line := by omega
    rw [qualLines_stop hst]
    unfold baseLoop
    rw [dif_pos hst]
    rfl
  | succ k ih =>
    intro line cs base hn hsort hdrop hsub
    by_cases hst : stop < line
    · rw [qualLines_stop hst]
      unfold baseLoop
      rw [dif_pos hst]
      rfl
    · have hls : line ≤ stop := by omega
      unfold baseLoop
      rw [dif_neg hst]
      split
      · rename_i c rest hcs
        have hlc2 : line ≤ c.2 := dropDone_head cs c rest hcs
        have hsubl := @dropDone_sublist line cs
        rw [hcs] at hsubl
        have hsort' : List.Pairwise childLe (c :: rest) :=
          List.Pairwise.sublist hsubl hsort
        have hdrop' : ∀ c' ∈ children, c' ∉ (c :: rest) → c'.2 < line := by
          intro c' hc' hnot
          by_cases hin : c' ∈ cs
          · by_cases hle : line ≤ c'.2
            · exact absurd (hcs ▸ dropDone_keep cs c' hin hle) hnot
            · omega
          · exact hdrop c' hc' hin
        have hsubm : ∀ c' ∈ (c :: rest), c' ∈ children := by
          intro c' hc'
          exact hsub c' (dropDone_subset cs c' (hcs ▸ hc'))
        split
        · rename_i h2
          have hq := @qualLines_skip_covered doc stop children c
            (hsubm c (List.mem_cons_self c rest)) (c.2 + 1 - line) line
            (Nat.le_refl _) h2.1 (by omega)
          rw [hq]
          exact ih (c.2 + 1) (c :: rest) base (by omega) hsort'
            (fun c' h h2 => by have := hdrop' c' h h2; omega) hsubm
        · rename_i h2
          have hlc1 : line < c.1 := by
            rcases Nat.lt_or_ge line c.1 with h | h
            · exact h
            · exact absurd ⟨h, hlc2⟩ h2
          have hnone : ∀ c' ∈ children, ¬(c'.1 ≤ line ∧ line ≤ c'.2) := by
            intro c' hc' hcov
            by_cases hin : c' ∈ (c :: rest)
            · rcases List.mem_cons.mp hin with rfl | hr
              · omega
              · have hle := (List.pairwise_cons.mp hsort').1 c' hr
                unfold childLe at hle
                omega
            · have := hdrop' c' hc' hin
              omega
          split
          · rename_i hdoc
            rw [qualLines_doc_end hdoc]
            rfl
          · rename_i hdoc
            dsimp only
            by_cases hbl : isBlank (doc.getD line "") = true
            · rw [if_pos hbl]
              have hskip := @qualLines_skip doc stop line children hls (by rw [hbl]; simp)
              rw [hskip]
              exact ih (line + 1) (c :: rest) base (by omega) hsort'
                (fun c' h h2 => Nat.lt_succ_of_lt (hdrop' c' h h2)) hsubm
            · rw [if_neg hbl]
              by_cases hind : 0 < fnw (doc.getD line "")
              · have hp : (decide (line < doc.length) &&
                    decide (∀ c ∈ children, ¬(c.1 ≤ line ∧ line ≤ c.2)) &&
                    !(isBlank (doc.getD line "")) &&
                    decide (0 < fnw (doc.getD line ""))) = true := by
                  rw [Bool.and_eq_true, Bool.and_eq_true, Bool.and_eq_true]
                  refine ⟨⟨⟨?_, ?_⟩, ?_⟩, ?_⟩
                  · exact decide_eq_true (by omega)
                  · exact decide_eq_true hnone
                  · rw [Bool.not_eq_true']
                    exact Bool.eq_false_iff.mpr hbl
                  · exact decide_eq_true hind
                rw [qualLines_cons hls hp, List.foldl_cons]
                have hmin : (if 0 < fnw (doc.getD line "") ∧
                    fnw (doc.getD line "") < base then fnw (doc.getD line "")
                    else base) = min base (fnw (doc.getD line "")) := by
                  split <;> omega
                rw [hmin]
                by_cases h1 : min base (fnw (doc.getD line "")) = 1
                · rw [if_pos h1, h1]
                  exact (foldl_min_one (fun m hm => qualLines_pos m hm)).symm
                · rw [if_neg h1]
                  exact ih (line + 1) (c :: rest) (min base (fnw (doc.getD line "")))
                    (by omega) hsort'
                    (fun c' h h2 => Nat.lt_succ_of_lt (hdrop' c' h h2)) hsubm
              · have h0 : fnw (doc.getD line "") = 0 := by omega
                have hmin : (if 0 < fnw (doc.getD line "") ∧
                    fnw (doc.getD line "") < base then fnw (doc.getD line "")
                    else base) = base := by
                  split <;> omega
                rw [hmin]
                have hskip := @qualLines_skip doc stop line children hls (by rw [h0]; simp)
                rw [hskip]
                by_cases h1 : base = 1
                · rw [if_pos h1, h1]
                  exact (foldl_min_one (fun m hm => qualLines_pos m hm)).symm
                · rw [if_neg h1]
                  exact ih (line + 1) (c :: rest) base (by omega) hsort'
                    (fun c' h h2 => Nat.lt_succ_of_lt (hdrop' c' h h2)) hsubm
      · rename_i hcs
        have hall : ∀ c' ∈ children, c'.2 < line := by
          intro c' hc'
          by_cases hin : c' ∈ cs
          · by_cases hle : line ≤ c'.2
            · have hk := dropDone_keep cs c' hin hle
              rw [hcs] at hk
              cases hk
            · omega
          · exact hdrop c' hc' hin
        have hnone : ∀ c' ∈ children, ¬(c'.1 ≤ line ∧ line ≤ c'.2) := by
          intro c' hc' hcov
          have := hall c' hc'
          omega
        have hdrop'' : ∀ c' ∈ children, c' ∉ ([] : List (Nat × Nat)) →
            c'.2 < line + 1 := fun c' hc' _ => Nat.lt_succ_of_lt (hall c' hc')
        have hsub'' : ∀ c' ∈ ([] : List (Nat × Nat)), c' ∈ children :=
          fun c' h => absurd h (List.not_mem_nil c')
        split
        · rename_i hdoc
          rw [qualLines_doc_end hdoc]
          rfl
        · rename_i hdoc
          dsimp only
          by_cases hbl : isBlank (doc.getD line "") = true
          · rw [if_pos hbl]
            have hskip := @qualLines_skip doc stop line children hls (by rw [hbl]; simp)
            rw [hskip]
            exact ih (line + 1) [] base (by omega) List.Pairwise.nil hdrop'' hsub''
          · rw [if_neg hbl]
            by_cases hind : 0 < fnw (doc.getD line "")
            · have hp : (decide (line < doc.length) &&
                  decide (∀ c ∈ children, ¬(c.1 ≤ line ∧ line ≤ c.2)) &&
                  !(isBlank (doc.getD line "")) &&
                  decide (0 < fnw (doc.getD line ""))) = true := by
                rw [Bool.and_eq_true, Bool.and_eq_true, Bool.and_eq_true]
                refine ⟨⟨⟨?_, ?_⟩, ?_⟩, ?_⟩
                · exact decide_eq_true (by omega)
                · exact decide_eq_true hnone
                · rw [Bool.not_eq_true']
                  exact Bool.eq_false_iff.mpr hbl
                · exact decide_eq_true hind
              rw [qualLines_cons hls hp, List.foldl_cons]
              have hmin : (if 0 < fnw (doc.getD line "") ∧
                  fnw (doc.getD line "") < base then fnw (doc.getD line "")
                  else base) = min base (fnw (doc.getD line "")) := by
                split <;> omega
              rw [hmin]
              by_cases h1 : min base (fnw (doc.getD line "")) = 1
              · rw [if_pos h1, h1]
                exact (foldl_min_one (fun m hm => qualLines_pos m hm)).symm
              · rw [if_neg h1]
                exact ih (line + 1) [] (min base (fnw (doc.getD line "")))
                  (by omega) List.Pairwise.nil hdrop'' hsub''
            · have h0 : fnw (doc.getD line "") = 0 := by omega
              have hmin : (if 0 < fnw (doc.getD line "") ∧
                  fnw (doc.getD line "") < base then fnw (doc.getD line "")
                  else base) = base := by
                split <;> omega
              rw [hmin]
              have hskip := @qualLines_skip doc stop line children hls (by rw [h0]; simp)
              rw [hskip]
              by_cases h1 : base = 1
              · rw [if_pos h1, h1]
                exact (foldl_min_one (fun m hm => qualLines_pos m hm)).symm
              · rw [if_neg h1]
                exact ih (line + 1) [] base (by omega) List.Pairwise.nil hdrop'' hsub''

theorem qualLines_sorted_eq (doc : List String) (stop line : Nat)
    (children : List (Nat × Nat)) :
    qualLines doc stop (List.insertionSort childLe children) line =
      qualLines doc stop children line := by
  unfold qualLines
  have hperm := List.perm_insertionSort childLe children
  have hfun : (fun l =>
      decide (l < doc.length) &&
      decide (∀ c ∈ List.insertionSort childLe children, ¬(c.1 ≤ l ∧ l ≤ c.2)) &&
      !(isBlank (doc.getD l "")) &&
      decide (0 < fnw (doc.getD l ""))) =
      (fun l =>
      decide (l < doc.length) &&
      decide (∀ c ∈ children, ¬(c.1 ≤ l ∧ l ≤ c.2)) &&
      !(isBlank (doc.getD l "")) &&
      decide (0 < fnw (doc.getD l ""))) := by
    funext l
    have hiff : (∀ c ∈ List.insertionSort childLe children, ¬(c.1 ≤ l ∧ l ≤ c.2)) ↔
        (∀ c ∈ children, ¬(c.1 ≤ l ∧ l ≤ c.2)) := by
      constructor
      · intro h c hc
        exact h c (hperm.mem_iff.mpr hc)
      · intro h c hc
        exact h c (hperm.mem_iff.mp hc)
    rw [decide_eq_decide.mpr hiff]
  rw [hfun]

/-- JavaScript `String.prototype.trim` (drop leading and trailing whitespace),
on the character list. -/
def jsTrim (s : String) : List Char :=
  ((s.data.dropWhile wsCh).reverse.dropWhile wsCh).reverse

/-- The spec reading of a "punctuation-only" line, as in the
`/^[}\)]\s*;?$/` test of the `part_001` variant of `computeBaseIndent`: the
trimmed line is a closing brace or closing parenthesis, optionally followed
by whitespace and one semicolon. (`Char.ofNat 125` is the closing brace,
`Char.ofNat 41` the closing parenthesis.) -/
def punctOnly (s : String) : Bool :=
  match jsTrim s with
  | [] => false
  | c :: rest =>
    (c == Char.ofNat 125 || c == Char.ofNat 41) &&
    (match rest.dropWhile wsCh with
     | [] => true
     | [c2] => c2 == ';'
     | _ => false)

/-- The indentation width the claim describes, translated from the claim's
words (for comparison with `computeColoringWidth`): the minimum leading
whitespace width over the block's own non-blank, non-punctuation-only lines
outside the children's intervals, falling back to the first line's
indentation, floored at one column. -/
def claimedWidthC8 (doc : List String) (start stop : Nat)
    (children : List (Nat × Nat)) : Nat :=
  let ws := ((List.range' start (stop + 1 - start)).filter (fun l =>
    decide (l < doc.length) &&
    decide (∀ c ∈ children, ¬(c.1 ≤ l ∧ l ≤ c.2)) &&
    !(isBlank (doc.getD l "")) &&
    !(punctOnly (doc.getD l "")))).map (fun l => fnw (doc.getD l ""))
  match ws.min? with
  | some m => max 1 m
  | none =>
    if start < doc.length then max 1 (fnw (doc.getD start "")) else 1

/-- **C8 counterexample.** The claim says punctuation-only lines (a lone
closing brace or parenthesis, optionally with a semicolon) are excluded from
the minimum, but `computeBaseIndent` of `src/src/extension.ts` has no such
exclusion: every non-blank line with positive indentation participates. For
the three-line block

```
    function f() \x7b
      x
  \x7d;
```

the code's width is `2` (the indentation of the punctuation-only line
`  \x7d;`), while the claimed minimum over non-blank, non-punctuation-only
lines is `min 4 6 = 4`. -/
theorem computeColoringWidth_punct_cex :
    computeColoringWidth ["    function f() \x7b", "      x", "  \x7d;"] 0 2 [] = 2 ∧
    claimedWidthC8 ["    function f() \x7b", "      x", "  \x7d;"] 0 2 [] = 4 ∧
    (2 : Nat) ≠ 4 := by
  refine ⟨?_, by decide, by decide⟩
  unfold computeColoringWidth computeBaseIndent
  dsimp only
  rw [show List.insertionSort childLe ([] : List (Nat × Nat)) = [] from rfl]
  rw [@baseLoop_fold ["    function f() \x7b", "      x", "  \x7d;"] 2
    ([] : List (Nat × Nat)) 3 0 [] MAX_SAFE
    (by decide) List.Pairwise.nil
    (fun c' hc' _ => absurd hc' (List.not_mem_nil c'))
    (fun c' hc' => absurd hc' (List.not_mem_nil c'))]
  decide

/-- **C8 (amended).** For every block whose document lines have leading
whitespace shorter than `Number.MAX_SAFE_INTEGER`, the computed coloring
width equals the minimum leading-whitespace width over the block's own
non-blank lines of positive indentation (punctuation-only lines included),
excluding lines owned by the block's children; if no such line exists it
falls back to the indentation of the block's first line, and the result is
never less than 1 column. -/
theorem computeColoringWidth_min_indent (doc : List String) (start stop : Nat)
    (children : List (Nat × Nat)) (hfnw : ∀ s ∈ doc, fnw s < MAX_SAFE) :
    computeColoringWidth doc start stop children =
      amendedWidth doc start stop children := by
  have hbl := @baseLoop_fold doc stop
    (List.insertionSort childLe children)
    (stop + 1 - start) start (List.insertionSort childLe children) MAX_SAFE
    (Nat.le_refl _)
    (List.sorted_insertionSort childLe children)
    (fun c' hc' hnot => absurd hc' hnot)
    (fun c' hc' => hc')
  rw [qualLines_sorted_eq] at hbl
  rw [foldl_min_min? (qualLines doc stop children start) MAX_SAFE] at hbl
  unfold computeColoringWidth computeBaseIndent amendedWidth
  dsimp only
  cases hm : (qualLines doc stop children start).min? with
  | none =>
    rw [hm] at hbl
    dsimp only at hbl
    dsimp only
    rw [hbl, if_pos rfl]
    rw [if_neg (by omega)]
  | some m =>
    have hmem : m ∈ qualLines doc stop children start :=
      List.min?_mem min_choice hm
    have h1 : 1 ≤ m := qualLines_pos m hmem
    have h2 : m < MAX_SAFE := qualLines_lt_max hfnw m hmem
    rw [hm] at hbl
    dsimp only at hbl
    dsimp only
    rw [hbl]
    rw [if_neg (show ¬ (MAX_SAFE ⊓ m = MAX_SAFE) by omega)]
    have hmax : (1 : Nat) ⊔ (MAX_SAFE ⊓ m) = m := by omega
    rw [hmax]
    rw [if_pos (by omega)]

/-- Witness for C8 (amended) at a concrete block: the three-line function of
the counterexample, whose leading whitespace is far below
`Number.MAX_SAFE_INTEGER`. -/
theorem computeColoringWidth_min_indent_witness :
    (∀ s ∈ ["    function f() \x7b", "      x", "  \x7d;"], fnw s < MAX_SAFE) ∧
    computeColoringWidth ["    function f() \x7b", "      x", "  \x7d;"] 0 2 [] =
      amendedWidth ["    function f() \x7b", "      x", "  \x7d;"] 0 2 [] :=
  ⟨by decide,
   computeColoringWidth_min_indent ["    function f() \x7b", "      x", "  \x7d;"]
     0 2 [] (by decide)⟩

/-!
## The exclusion bus (`publishExclusionRanges`, source appended in
`src/CHANGELOG.md`)

A subscriber callback is a function of the published ranges; a callback that
throws is rendered as one returning `Except.error`. `publishExclusionRanges`
stores the ranges in `lastRanges` and walks the listener set (iteration in
registration order, as for a JS `Set`), wrapping each call in
`try ... catch \x7b /* noop */ \x7d`; the per-call outcome (normal return or
caught exception) is returned as an explicit invocation trace. -/

/-- A subscriber callback (`RangesListener`): it may throw, rendered as
`Except.error`. -/
def RangesListener : Type := List Rng → Except String Unit

/-- The module state of `exclusionBus.ts`: the last published ranges and the
registered listeners in registration order. -/
structure Bus where
  lastRanges : List Rng
  listeners : List RangesListener

/-- The `for (const l of listeners) \x7b try \x7b l(ranges); \x7d catch
\x7b\x7d \x7d` loop: each callback is invoked in order; a callback that
throws has its exception caught and discarded, and the walk continues with
the remaining callbacks. The list of per-callback outcomes is returned. -/
def notifyAll (rs : List Rng) : List RangesListener → List (Except String Unit)
  | [] => []
  | l :: ls =>
    match l rs with
    | Except.ok u => Except.ok u :: notifyAll rs ls
    | Except.error e => Except.error e :: notifyAll rs ls

/-- `publishExclusionRanges`: store the ranges and notify every listener,
returning the new bus state and the invocation trace. -/
def publishExclusionRanges (b : Bus) (rs : List Rng) :
    Bus × List (Except String Unit) :=
  ({ lastRanges := rs, listeners := b.listeners }, notifyAll rs b.listeners)

/-- `onExclusionRanges`: register the listener and immediately replay the
last published ranges to it (its exception, if any, likewise caught); the
replay outcome is returned alongside the new state. -/
def onExclusionRanges (b : Bus) (l : RangesListener) :
    Bus × Except String Unit :=
  ({ lastRanges := b.lastRanges, listeners := b.listeners ++ [l] },
   l b.lastRanges)

theorem notifyAll_eq_map (rs : List Rng) :
    ∀ ls : List RangesListener, notifyAll rs ls = ls.map (fun l => l rs) := by
  intro ls
  induction ls with
  | nil => rfl
  | cons l ls ih =>
    unfold notifyAll
    cases h : l rs with
    | ok u =>
      rw [List.map_cons, ih, h]
    | error e =>
      rw [List.map_cons, ih, h]

/-- **C9.** Publishing a set of exclusion ranges stores it as the last
published set, leaves the listener set unchanged, and the invocation trace
is exactly one entry per registered listener, in registration order, each
entry being that listener's own outcome on the published ranges — so the
`i`-th listener is invoked with the published ranges even when other
listeners (in particular earlier ones) throw, and the publishing call
itself always returns normally (it is a total function whose result never
depends on whether any callback threw). -/
theorem publishExclusionRanges_notifies_all (b : Bus) (rs : List Rng) :
    (publishExclusionRanges b rs).1.lastRanges = rs ∧
    (publishExclusionRanges b rs).1.listeners = b.listeners ∧
    (publishExclusionRanges b rs).2 = b.listeners.map (fun l => l rs) :=
  ⟨rfl, rfl, notifyAll_eq_map rs b.listeners⟩

/-!
## The brace-scanning extractor (`computeFunctionRanges`, `dropNested`)

From `src/unnamed/part_007` lines 69–155 (identically `part_006`). The
`maybeFuncStart` regex test (`\bfunction\b`, arrow `=> \x7b`, or
`name(...) \x7b`) is abstracted as a Boolean predicate `isStart` on the line
text, over which all statements quantify; everything else is translated
directly. `Char.ofNat 123` / `Char.ofNat 125` are the opening and closing
braces. -/

/-- `text.includes(String.fromCharCode(123))`: the line holds an opening
brace. -/
def containsBrace (s : String) : Bool :=
  s.data.any (fun ch => ch == Char.ofNat 123)

/-- The `countBraces` closure: walk the line, `open++` on an opening brace,
`open--` on a closing one, returning `true` (and stopping) the moment the
counter reaches zero on a closing brace. The counter is a JS number and may
go negative, hence `Int`. -/
def countBraces : List Char → Int → Int × Bool
  | [], o => (o, false)
  | ch :: rest, o =>
    if ch == Char.ofNat 123 then countBraces rest (o + 1)
    else if ch == Char.ofNat 125 then
      if o - 1 = 0 then (0, true) else countBraces rest (o - 1)
    else countBraces rest o

/-- The brace-line search of `computeFunctionRanges`: from line `b`, find
the first line holding an opening brace; the `while` advances only while
`braceLine + 1 < doc.lineCount`. -/
def findBrace (doc : List String) (b : Nat) : Option Nat :=
  if containsBrace (doc.getD b "") then some b
  else if h : b + 1 < doc.length then findBrace doc (b + 1)
  else none
termination_by doc.length - b

/-- The closing-line search: `while (open > 0 && endLine + 1 < lineCount)`,
advancing `endLine` and folding the next line into the counter, stopping as
soon as a line closes the block. -/
def closeLoop (doc : List String) (o : Int) (e : Nat) : Nat :=
  if h : 0 < o ∧ e + 1 < doc.length then
    let r := countBraces (doc.getD (e + 1) "").data o
    if r.2 then e + 1 else closeLoop doc r.1 (e + 1)
  else e
termination_by doc.length - e

/-- The end line of the block whose first opening brace sits on line `b`:
count the brace line itself (from `open = 0`), then run the closing-line
search. -/
def scanEnd (doc : List String) (b : Nat) : Nat :=
  let r := countBraces (doc.getD b "").data 0
  if r.2 then b else closeLoop doc r.1 b

theorem findBrace_ge {doc : List String} :
    ∀ (n b r : Nat), doc.length - b ≤ n → findBrace doc b = some r → b ≤ r := by
  intro n
  induction n with
  | zero =>
    intro b r hn hf
    unfold findBrace at hf
    split at hf
    · cases hf
      exact Nat.le_refl b
    · split at hf
      · omega
      · cases hf
  | succ k ih =>
    intro b r hn hf
    unfold findBrace at hf
    split at hf
    · cases hf
      exact Nat.le_refl b
    · split at hf
      · rename_i h
        have := ih (b + 1) r (by omega) hf
        omega
      · cases hf

theorem closeLoop_ge {doc : List String} :
    ∀ (n : Nat) (o : Int) (e : Nat), doc.length - e ≤ n →
      e ≤ closeLoop doc o e := by
  intro n
  induction n with
  | zero =>
    intro o e hn
    unfold closeLoop
    split
    · rename_i h
      omega
    · exact Nat.le_refl e
  | succ k ih =>
    intro o e hn
    unfold closeLoop
    split
    · rename_i h
      dsimp only
      split
      · omega
      · have := ih (countBraces (doc.getD (e + 1) "").data o).1 (e + 1) (by omega)
        omega
    · exact Nat.le_refl e

theorem scanEnd_ge (doc : List String) (b : Nat) : b ≤ scanEnd doc b := by
  unfold scanEnd
  dsimp only
  split
  · exact Nat.le_refl b
  · exact closeLoop_ge (doc.length - b) _ b (Nat.le_refl _)

/-- The scanning `for` loop of `computeFunctionRanges`: at a line passing
the `maybeFuncStart` test, locate the first brace line, count braces to the
closing line `e`, push the range from `(i, 0)` to the end of line `e`
(character = line length), and resume at `e + 1` (the `i = endLine` jump);
lines failing the test, and start lines with no brace line at all, are
skipped. -/
def scanRanges (doc : List String) (isStart : String → Bool) (i : Nat) :
    List Rng :=
  if hlen : i < doc.length then
    if isStart (doc.getD i "") then
      match hfb : findBrace doc i with
      | none => scanRanges doc isStart (i + 1)
      | some b =>
        ⟨⟨i, 0⟩, ⟨scanEnd doc b, (doc.getD (scanEnd doc b) "").length⟩⟩ ::
          scanRanges doc isStart (scanEnd doc b + 1)
    else scanRanges doc isStart (i + 1)
  else []
termination_by doc.length - i
decreasing_by
  · omega
  · have h1 := findBrace_ge (doc.length - i) i b (Nat.le_refl _) hfb
    have h2 := scanEnd_ge doc b
    omega
  · omega

/-- The comparator of `dropNested`'s
`sort((a,b) => a.start.line - b.start.line || a.end.line - b.end.line)`. -/
def rngKeyLe (a b : Rng) : Prop :=
  a.start.line < b.start.line ∨
    (a.start.line = b.start.line ∧ a.stop.line ≤ b.stop.line)

instance : DecidableRel rngKeyLe := by
  unfold rngKeyLe
  infer_instance

instance : IsTotal Rng rngKeyLe := by
  constructor
  intro a b
  unfold rngKeyLe
  omega

instance : IsTrans Rng rngKeyLe := by
  constructor
  intro a b c
  unfold rngKeyLe
  omega

/-- One step of `dropNested`'s output loop: drop `r` when it is fully
contained (by position comparisons) in the last kept range, else append
it. -/
def dropStep (out : List Rng) (r : Rng) : List Rng :=
  match out.getLast? with
  | some last =>
    if r.start.isAfterOrEqual last.start && r.stop.isBeforeOrEqual last.stop
    then out
    else out ++ [r]
  | none => out ++ [r]

/-- `dropNested`: sort by (start line, end line) and keep a range only when
it is not fully contained in the previously kept one. -/
def dropNested (ranges : List Rng) : List Rng :=
  (List.insertionSort rngKeyLe ranges).foldl dropStep []

/-- `computeFunctionRanges`, parameterized by the `maybeFuncStart` test. -/
def computeFunctionRanges (doc : List String) (isStart : String → Bool) :
    List Rng :=
  dropNested (scanRanges doc isStart 0)

theorem scanRanges_chain {doc : List String} {isStart : String → Bool} :
    ∀ (n i : Nat), doc.length - i ≤ n →
      (∀ r ∈ scanRanges doc isStart i,
        i ≤ r.start.line ∧ r.start.line ≤ r.stop.line) ∧
      List.Pairwise (fun a b => a.stop.line < b.start.line)
        (scanRanges doc isStart i) := by
  intro n
  induction n with
  | zero =>
    intro i hn
    have hlen : ¬ i < doc.length := by omega
    unfold scanRanges
    rw [dif_neg hlen]
    exact ⟨fun r hr => absurd hr (List.not_mem_nil r), List.Pairwise.nil⟩
  | succ k ih =>
    intro i hn
    by_cases hlen : i < doc.length
    · unfold scanRanges
      rw [dif_pos hlen]
      split
      · split
        · obtain ⟨hm, hp⟩ := ih (i + 1) (by omega)
          exact ⟨fun r hr => by have := hm r hr; omega, hp⟩
        · rename_i b hfb
          have hib : i ≤ b := findBrace_ge (doc.length - i) i b (Nat.le_refl _) hfb
          have hbe : b ≤ scanEnd doc b := scanEnd_ge doc b
          obtain ⟨hm, hp⟩ := ih (scanEnd doc b + 1) (by omega)
          constructor
          · intro r hr
            rcases List.mem_cons.mp hr with rfl | hr'
            · exact ⟨Nat.le_refl i, (by omega : i ≤ scanEnd doc b)⟩
            · have := hm r hr'
              omega
          · rw [List.pairwise_cons]
            constructor
            · intro r hr
              have := hm r hr
              exact (by omega : scanEnd doc b < r.start.line)
            · exact hp
      · obtain ⟨hm, hp⟩ := ih (i + 1) (by omega)
        exact ⟨fun r hr => by have := hm r hr; omega, hp⟩
    · unfold scanRanges
      rw [dif_neg hlen]
      exact ⟨fun r hr => absurd hr (List.not_mem_nil r), List.Pairwise.nil⟩

theorem foldl_dropStep_chain :
    ∀ (l out : List Rng),
      List.Pairwise (fun a b => a.stop.line < b.start.line) l →
      (∀ r ∈ l, r.start.line ≤ r.stop.line) →
      (∀ a ∈ out, ∀ b ∈ l, a.stop.line < b.start.line) →
      l.foldl dropStep out = out ++ l := by
  intro l
  induction l with
  | nil =>
    intro out _ _ _
    simp
  | cons r l' ih =>
    intro out hchain hmem hout
    rw [List.foldl_cons]
    have hstep : dropStep out r = out ++ [r] := by
      unfold dropStep
      cases hlast : out.getLast? with
      | none => rfl
      | some last =>
        have hlastmem : last ∈ out := by
          have hm : last ∈ out.getLast? := by
            rw [Option.mem_def, hlast]
          rcases List.mem_getLast?_eq_getLast hm with ⟨hne, heq⟩
          rw [heq]
          exact List.getLast_mem hne
        have hlt : last.stop.line < r.start.line :=
          hout last hlastmem r (List.mem_cons_self r l')
        have hrr : r.start.line ≤ r.stop.line := hmem r (List.mem_cons_self r l')
        have hfalse : (r.start.isAfterOrEqual last.start &&
            r.stop.isBeforeOrEqual last.stop) = false := by
          rw [Bool.and_eq_false_iff]
          right
          rw [Pos.isBeforeOrEqual_eq_false]
          omega
        dsimp only
        rw [hfalse]
        rfl
    rw [hstep]
    rw [ih (out ++ [r]) (List.pairwise_cons.mp hchain).2
      (fun x hx => hmem x (List.mem_cons_of_mem r hx))
      (by
        intro a ha b hb
        rcases List.mem_append.mp ha with ha' | ha'
        · exact hout a ha' b (List.mem_cons_of_mem r hb)
        · rw [List.mem_singleton] at ha'
          subst ha'
          exact (List.pairwise_cons.mp hchain).1 b hb)]
    rw [List.append_assoc, List.singleton_append]

/-- **C10.** For every document and every `maybeFuncStart` predicate, the
range list returned by the brace-scanning extractor `computeFunctionRanges`
is containment-free: no returned range lies fully inside another returned
range (in the code's own `start.isAfterOrEqual` / `end.isBeforeOrEqual`
sense). The scan resumes after each extracted block (`i = endLine`), so the
pushed ranges occupy strictly increasing, disjoint line spans, and
`dropNested` then keeps them all. -/
theorem computeFunctionRanges_containment_free (doc : List String)
    (isStart : String → Bool) :
    List.Pairwise (fun a b => ¬ insideRng a b ∧ ¬ insideRng b a)
      (computeFunctionRanges doc isStart) := by
  obtain ⟨hmem, hchain⟩ :=
    @scanRanges_chain doc isStart doc.length 0 (by omega)
  have hmem' : ∀ r ∈ scanRanges doc isStart 0, r.start.line ≤ r.stop.line :=
    fun r hr => (hmem r hr).2
  have hsorted : List.Pairwise rngKeyLe (scanRanges doc isStart 0) := by
    refine List.Pairwise.imp_of_mem ?_ hchain
    intro a b ha hb hab
    have h1 := hmem' a ha
    unfold rngKeyLe
    omega
  unfold computeFunctionRanges dropNested
  rw [List.Sorted.insertionSort_eq hsorted]
  rw [foldl_dropStep_chain (scanRanges doc isStart 0) [] hchain hmem'
    (fun a ha => absurd ha (List.not_mem_nil a))]
  rw [List.nil_append]
  refine List.Pairwise.imp_of_mem ?_ hchain
  intro a b ha hb hab
  have h1 := hmem' a ha
  have h2 := hmem' b hb
  constructor
  · intro hin
    rcases hin with ⟨hs, _⟩
    rw [Pos.isAfterOrEqual_def, Pos.isBeforeOrEqual_iff] at hs
    omega
  · intro hin
    rcases hin with ⟨_, he⟩
    rw [Pos.isBeforeOrEqual_iff] at he
    omega
